import Mathlib

/-!
# IpFilther: the address pool and its traversal

A shallow embedding of `ConsoleApplication1/ip_filther.cpp`.

* `std::string` is a list of characters, a stream is the list of characters written so far,
  and the input stream is the list of the lines `std::getline` yields.
* `std::map<Part, T, std::greater<Part>>` is the list of its entries in iteration order
  (largest key first); `ip.map_ok` states the container invariant (strictly descending keys).
* `ip_v4_part` is `uint8_t`: a natural number below 256 (`ip.octets_ok` on a pool).
  `repeats` and `line_id` are `size_t`; they are counted in `Nat`, a wrap needs an input of
  `2^64` lines.
* Library functions are modelled on their documented behaviour: `boost::split` (no token
  compression), `boost::lexical_cast<size_t>` (optional sign, decimal digits, a minus sign
  negates modulo `2^64`), `boost::numeric_cast<uint8_t>` (range check), `std::to_string`.
* A thrown exception is `Except.error`; log records written before it stay in the log.
-/

namespace ip

/-! ## Data model -/

abbrev Str := List Char

abbrev repeats := Nat

abbrev ip_v4_part := Nat

/-- The template `ip_pool_parts<Part, SecondParts>`: entries in iteration order. -/
abbrev ip_pool_parts (SecondParts : Type) := List (ip_v4_part × SecondParts)

/-- The template `closing_ip_parts<Part>`. -/
abbrev closing_ip_parts := List (ip_v4_part × repeats)

abbrev ip_v4 := ip_v4_part × ip_v4_part × ip_v4_part × ip_v4_part

abbrev ip_v4_pool := ip_pool_parts (ip_pool_parts (ip_pool_parts closing_ip_parts))

/-! ## std::map -/

/-- Lookup `std::map::find`: the value stored under `k`, if any. -/
def map_find {β : Type} (k : ip_v4_part) : List (ip_v4_part × β) → Option β
  | [] => none
  | (k', v) :: rest => if k' = k then some v else map_find k rest

/-- The statement `f(m[k])`: `operator[]` finds the entry of `k`, inserting a
value-initialised one at its place in the descending order when there is none, and `f`
updates the referenced value in place. -/
def map_index {β : Type} (dflt : β) (k : ip_v4_part) (f : β → β) :
    List (ip_v4_part × β) → List (ip_v4_part × β)
  | [] => [(k, f dflt)]
  | (k', v) :: rest =>
      if k' = k then (k', f v) :: rest
      else if k' > k then (k', v) :: map_index dflt k f rest
      else (k, f dflt) :: (k', v) :: rest

/-- The value the reference `m[k]` denotes. -/
def map_at {β : Type} (dflt : β) (k : ip_v4_part) (m : List (ip_v4_part × β)) : β :=
  (map_find k m).getD dflt

/-- Container invariant of one `std::map<uint8_t, _, std::greater>`: keys strictly
descending in iteration order (hence unique). -/
def map_ok {β : Type} (m : List (ip_v4_part × β)) : Prop :=
  m.Pairwise (fun x y => x.1 > y.1)

instance {β : Type} (m : List (ip_v4_part × β)) : Decidable (map_ok m) := by
  unfold map_ok; infer_instance

/-- Container invariant at all four levels of a pool. -/
def pool_ok (pool : ip_v4_pool) : Prop :=
  map_ok pool ∧ ∀ e1 ∈ pool, map_ok e1.2 ∧
    ∀ e2 ∈ e1.2, map_ok e2.2 ∧ ∀ e3 ∈ e2.2, map_ok e3.2

instance (pool : ip_v4_pool) : Decidable (pool_ok pool) := by
  unfold pool_ok; infer_instance

/-- Every key of the pool is a `uint8_t` value. -/
def octets_ok (pool : ip_v4_pool) : Prop :=
  ∀ e1 ∈ pool, e1.1 < 256 ∧ ∀ e2 ∈ e1.2, e2.1 < 256 ∧
    ∀ e3 ∈ e2.2, e3.1 < 256 ∧ ∀ e4 ∈ e3.2, e4.1 < 256

instance (pool : ip_v4_pool) : Decidable (octets_ok pool) := by
  unfold octets_ok; infer_instance

/-- The count stored at path `a -> b -> c -> d`, if the path exists. -/
def count_at (pool : ip_v4_pool) (ip : ip_v4) : Option repeats :=
  (map_find ip.1 pool).bind fun l2 =>
  (map_find ip.2.1 l2).bind fun l3 =>
  (map_find ip.2.2.1 l3).bind fun l4 =>
  map_find ip.2.2.2 l4

/-- The statement `++ip_v4_pool[a][b][c][d]`. -/
def increment (pool : ip_v4_pool) (a b c d : ip_v4_part) : ip_v4_pool :=
  map_index [] a (map_index [] b (map_index [] c (map_index 0 d (· + 1)))) pool

/-! ## to_string -/

/-- The function `std::to_string` on an octet promoted to `int`: decimal, no leading zeros. -/
def std_to_string (n : Nat) : Str := Nat.toDigits 10 n

def ip_v4_part_delimiter : Str := ['.']

def to_string (ip : ip_v4) : Str :=
  std_to_string ip.1
    ++ ip_v4_part_delimiter ++ std_to_string ip.2.1
    ++ ip_v4_part_delimiter ++ std_to_string ip.2.2.1
    ++ ip_v4_part_delimiter ++ std_to_string ip.2.2.2

/-! ## for_each -/

/-- Overload `for_each(tuple<3>, begin, end, call_me)`; the state `σ` is what the callback
acts on (the destination stream in `main`). -/
def for_each_3 {σ : Type} (ip : ip_v4_part × ip_v4_part × ip_v4_part)
    (range : closing_ip_parts) (callback : ip_v4 → repeats → σ → σ) (s : σ) : σ :=
  range.foldl (fun s ip_part4 => callback (ip.1, ip.2.1, ip.2.2, ip_part4.1) ip_part4.2 s) s

/-- Overload `for_each(tuple<2>, begin, end, call_me)`. -/
def for_each_2 {σ : Type} (ip : ip_v4_part × ip_v4_part)
    (range : ip_pool_parts closing_ip_parts) (callback : ip_v4 → repeats → σ → σ) (s : σ) : σ :=
  range.foldl (fun s ip_part3 => for_each_3 (ip.1, ip.2, ip_part3.1) ip_part3.2 callback s) s

/-- Overload `for_each(ip_v4_part, begin, end, call_me)`. -/
def for_each_1 {σ : Type} (ip_first_part : ip_v4_part)
    (range : ip_pool_parts (ip_pool_parts closing_ip_parts))
    (callback : ip_v4 → repeats → σ → σ) (s : σ) : σ :=
  range.foldl (fun s ip_part2 => for_each_2 (ip_first_part, ip_part2.1) ip_part2.2 callback s) s

/-- Overload `for_each(begin, end, call_me)`. -/
def for_each {σ : Type} (range : ip_v4_pool) (callback : ip_v4 → repeats → σ → σ) (s : σ) : σ :=
  range.foldl (fun s ip_part1 => for_each_1 ip_part1.1 ip_part1.2 callback s) s

/-- A callback that records its arguments. -/
def record (ip : ip_v4) (rep : repeats) (seen : List (ip_v4 × repeats)) : List (ip_v4 × repeats) :=
  seen ++ [(ip, rep)]

/-- The sequence of `(address, count)` pairs the full enumeration passes to its callback. -/
def calls (pool : ip_v4_pool) : List (ip_v4 × repeats) := for_each pool record []

/-- The pairs passed by the traversal below a fixed first octet. -/
def calls_1 (o1 : ip_v4_part) (range : ip_pool_parts (ip_pool_parts closing_ip_parts)) :
    List (ip_v4 × repeats) := for_each_1 o1 range record []

/-- The pairs passed by the traversal below two fixed octets. -/
def calls_2 (ip : ip_v4_part × ip_v4_part) (range : ip_pool_parts closing_ip_parts) :
    List (ip_v4 × repeats) := for_each_2 ip range record []

/-! ## boost::split, lexical_cast, numeric_cast -/

/-- The call `boost::split(tokens, input, boost::is_any_of(delims))` with the default
`token_compress_off`: one token per delimiter plus one. -/
def split (delims : Str) : Str → List Str
  | [] => [[]]
  | c :: cs =>
      if delims.contains c then [] :: split delims cs
      else match split delims cs with
        | [] => [[c]]
        | t :: ts => (c :: t) :: ts

inductive cast_error where
  | bad_lexical_cast
  | bad_numeric_cast
  deriving DecidableEq, Repr

deriving instance DecidableEq for Except

/-- Largest `size_t` (64-bit target). -/
def SIZE_MAX : Nat := 2 ^ 64 - 1

def is_digit (c : Char) : Bool := decide (48 ≤ c.toNat) && decide (c.toNat ≤ 57)

/-- Value of a run of decimal digits. -/
def digits_value (s : Str) : Nat := s.foldl (fun acc c => acc * 10 + (c.toNat - 48)) 0

/-- Unsigned conversion of Boost.LexicalCast: a non-empty run of decimal digits (leading
zeros allowed) whose value fits `size_t`. -/
def lcast_ret_unsigned (s : Str) : Option Nat :=
  if s.isEmpty then none
  else if s.all is_digit then
    (if digits_value s ≤ SIZE_MAX then some (digits_value s) else none)
  else none

/-- The call `boost::lexical_cast<size_t>(text)`: an optional `+` or `-`, then the unsigned
conversion; after a minus sign the value is negated as `size_t`. -/
def lexical_cast (text : Str) : Except cast_error Nat :=
  match text with
  | [] => .error .bad_lexical_cast
  | c :: rest =>
      let has_minus := c == '-'
      let body := if has_minus || c == '+' then rest else c :: rest
      match lcast_ret_unsigned body with
      | none => .error .bad_lexical_cast
      | some v => .ok (if has_minus then (SIZE_MAX + 1 - v) % (SIZE_MAX + 1) else v)

/-- The call `boost::numeric_cast<ip_v4_part>(value)`. -/
def numeric_cast (value : Nat) : Except cast_error ip_v4_part :=
  if value ≤ 255 then .ok value else .error .bad_numeric_cast

/-- The lambda given to `std::transform` in `extract_ip_pool`. -/
def parse_part (ip_part : Str) : Except cast_error ip_v4_part :=
  match lexical_cast ip_part with
  | .error e => .error e
  | .ok v => numeric_cast v

/-- The call `std::transform(tokens.begin(), tokens.end(), ...)`: in order, the first throw
ends it. -/
def transform : List Str → Except cast_error (List ip_v4_part)
  | [] => .ok []
  | t :: ts =>
      match parse_part t with
      | .error e => .error e
      | .ok v =>
          match transform ts with
          | .error e => .error e
          | .ok vs => .ok (v :: vs)

/-! ## extract_ip_pool -/

/-- Records written with `BOOST_LOG_TRIVIAL(warning)` by `extract_ip_pool`: the values
streamed into the message. The message text is not modelled (the source streams
`ip_parts_count` and `line_id` one after the other with nothing between them). -/
inductive log_record where
  | empty_parsing_result (line_id : Nat)
  | ip_parts_count (count : Nat) (required : Nat) (line_id : Nat)
  deriving DecidableEq, Repr

def ip_parts_count : Nat := 4

/-- What a run of `extract_ip_pool` leaves: the log, and the pool or the exception. -/
structure extraction where
  log : List log_record
  pool : Except cast_error ip_v4_pool

/-- The loop of `extract_ip_pool` from line number `line_id` on. -/
def extract_loop (line_id : Nat) (ip_v4_pool : ip_v4_pool) (log : List log_record) :
    List Str → extraction
  | [] => ⟨log, .ok ip_v4_pool⟩
  | line :: rest =>
      let tokens := split ['\t'] line
      if tokens.isEmpty then
        extract_loop (line_id + 1) ip_v4_pool (log ++ [.empty_parsing_result line_id]) rest
      else
        let ip_v4_as_string := tokens.headD []
        let tokens := split ip_v4_part_delimiter ip_v4_as_string
        if tokens.length < ip_parts_count then
          extract_loop (line_id + 1) ip_v4_pool
            (log ++ [.ip_parts_count tokens.length ip_parts_count line_id]) rest
        else
          let tokens := tokens.take ip_parts_count
          match transform tokens with
          | .error e => ⟨log, .error e⟩
          | .ok ip_v4_parts =>
              extract_loop (line_id + 1)
                (increment ip_v4_pool (ip_v4_parts.getD 0 0) (ip_v4_parts.getD 1 0)
                  (ip_v4_parts.getD 2 0) (ip_v4_parts.getD 3 0))
                log rest

def extract_ip_pool (source : List Str) : extraction := extract_loop 1 [] [] source

/-! ## main -/

/-- The call `std::generate_n(std::ostream_iterator(dest, delim), rep, value)`. -/
def generate_n (delim : Str) (value : Str) : Nat → Str → Str
  | 0, dest => dest
  | n + 1, dest => generate_n delim value n (dest ++ value ++ delim)

/-- The emission callback of the first three passes of `main`. -/
def emit (ip : ip_v4) (rep : repeats) (dest : Str) : Str :=
  generate_n ['\n'] (to_string ip) rep dest

/-- The test made by the callback of the last pass: `does_ip_fit_filter`, or-ed over the
four parts with `boost::is_any_of({46})`. -/
def does_ip_fit_filter (ip : ip_v4) : Bool :=
  (((false || [46].contains ip.1) || [46].contains ip.2.1) || [46].contains ip.2.2.1)
    || [46].contains ip.2.2.2

/-- The callback of the last pass of `main`. -/
def emit_any (ip : ip_v4) (rep : repeats) (dest : Str) : Str :=
  if !does_ip_fit_filter ip then dest
  else generate_n ['\n'] (to_string ip) rep dest

/-- The four passes of `main` over a pool, writing to `dest`; `ip_v4_pool[1]` and
`ip_v4_pool[46][70]` are `operator[]` on the pool itself. Returns the pool afterwards and
the stream. -/
def passes (pool : ip_v4_pool) (dest : Str) : ip_v4_pool × Str :=
  let dest := for_each pool emit dest
  let pool := map_index [] 1 id pool
  let dest := for_each_1 1 (map_at [] 1 pool) emit dest
  let pool := map_index [] 46 (map_index [] 70 id) pool
  let dest := for_each_2 (46, 70) (map_at [] 70 (map_at [] 46 pool)) emit dest
  let dest := for_each pool emit_any dest
  (pool, dest)

/-- Records written by `main` itself. -/
inductive main_record where
  | cant_open_source
  | no_ip_address
  | cant_open_destination
  deriving DecidableEq, Repr

/-- What a run of `main` leaves: the exit status (`none` when an uncaught exception ends
the process), the content written to the destination file, and the records logged. -/
structure run where
  status : Option Int
  written : Str
  records : List main_record
  warnings : List log_record

/-- The function `main` after argument parsing: `source` is the list of lines of the source
file, or `none` when it cannot be opened; `destination_opens` tells whether the destination
can be opened for writing (a stream that failed to open drops what is written to it). -/
def main (source : Option (List Str)) (destination_opens : Bool) : run :=
  match source with
  | none => ⟨some (-1), [], [.cant_open_source], []⟩
  | some lines =>
      let extracted := extract_ip_pool lines
      match extracted.pool with
      | .error _ => ⟨none, [], [], extracted.log⟩
      | .ok ip_v4_pool =>
          if ip_v4_pool.isEmpty then ⟨some 0, [], [.no_ip_address], extracted.log⟩
          else
            -- the test after opening the destination is `!ip_v4_pool_source.is_open()`
            let ip_v4_pool_source_is_open := true
            if !ip_v4_pool_source_is_open then
              ⟨some (-1), [], [.cant_open_destination], extracted.log⟩
            else
              ⟨some 0, if destination_opens then (passes ip_v4_pool []).2 else [], [],
                extracted.log⟩

/-! ## Specification vocabulary -/

/-- Leaves below three fixed octets, in iteration order. -/
def leaves_3 (ip : ip_v4_part × ip_v4_part × ip_v4_part) (range : closing_ip_parts) :
    List (ip_v4 × repeats) :=
  range.map fun e => ((ip.1, ip.2.1, ip.2.2, e.1), e.2)

def leaves_2 (ip : ip_v4_part × ip_v4_part) (range : ip_pool_parts closing_ip_parts) :
    List (ip_v4 × repeats) :=
  range.flatMap fun e => leaves_3 (ip.1, ip.2, e.1) e.2

def leaves_1 (o1 : ip_v4_part) (range : ip_pool_parts (ip_pool_parts closing_ip_parts)) :
    List (ip_v4 × repeats) :=
  range.flatMap fun e => leaves_2 (o1, e.1) e.2

def leaves (pool : ip_v4_pool) : List (ip_v4 × repeats) :=
  pool.flatMap fun e => leaves_1 e.1 e.2

/-- Feeding a list of pairs to a callback, in order. -/
def feed {σ : Type} (callback : ip_v4 → repeats → σ → σ) (ps : List (ip_v4 × repeats)) (s : σ) : σ :=
  ps.foldl (fun s p => callback p.1 p.2 s) s

/-- Strict lexicographic "greater" on addresses, octets compared numerically. -/
def ip_gt (x y : ip_v4) : Prop :=
  x.1 > y.1 ∨ (x.1 = y.1 ∧ (x.2.1 > y.2.1 ∨ (x.2.1 = y.2.1 ∧
    (x.2.2.1 > y.2.2.1 ∨ (x.2.2.1 = y.2.2.1 ∧ x.2.2.2 > y.2.2.2)))))

instance (x y : ip_v4) : Decidable (ip_gt x y) := by unfold ip_gt; infer_instance

/-- A property of every value stored in a map. -/
def all_vals {β : Type} (P : β → Prop) (m : List (ip_v4_part × β)) : Prop := ∀ e ∈ m, P e.2

/-- Number of lines written to a stream: its newline characters. -/
def line_count (dest : Str) : Nat := dest.count '\n'

/-- The lines written to a stream: its newline-terminated pieces, in order. -/
def written_lines (dest : Str) : List Str := (split ['\n'] dest).dropLast

/-- The dot-separated tokens of the first tab-delimited field of a line. -/
def line_tokens (line : Str) : List Str :=
  split ip_v4_part_delimiter ((split ['\t'] line).headD [])

/-- The line's first field has at least 4 tokens and the first four parse to the octets of
`ip`. -/
def line_parses_to (ip : ip_v4) (line : Str) : Prop :=
  4 ≤ (line_tokens line).length ∧
    ((line_tokens line).take 4).map parse_part
      = [.ok ip.1, .ok ip.2.1, .ok ip.2.2.1, .ok ip.2.2.2]

instance (ip : ip_v4) (line : Str) : Decidable (line_parses_to ip line) := by
  unfold line_parses_to; infer_instance

/-- The octet parser accepts the token. -/
def accepted (token : Str) : Bool :=
  match parse_part token with
  | .ok _ => true
  | .error _ => false

/-- The line is skipped for its part count. -/
def line_skipped (line : Str) : Prop := (line_tokens line).length < 4

instance (line : Str) : Decidable (line_skipped line) := by
  unfold line_skipped; infer_instance

/-- The line is successfully parsed: not skipped, and its first four tokens are accepted. -/
def line_parsed (line : Str) : Prop :=
  4 ≤ (line_tokens line).length ∧ ∀ t ∈ (line_tokens line).take 4, accepted t = true

instance (line : Str) : Decidable (line_parsed line) := by
  unfold line_parsed; infer_instance

/-- The address a successfully parsed line is counted under. -/
def line_ip (line : Str) : Option ip_v4 :=
  match transform ((line_tokens line).take 4) with
  | .ok [a, b, c, d] => some (a, b, c, d)
  | _ => none

/-- Every count stored in the pool is at least 1. -/
def counts_pos (pool : ip_v4_pool) : Prop := ∀ ip c, count_at pool ip = some c → 1 ≤ c

/-- Sum of all counts stored in the pool. -/
def total (pool : ip_v4_pool) : Nat := ((leaves pool).map Prod.snd).sum

/-- The example input of the specification. -/
def example_source : List Str :=
  ["1.2.3.4\tX".toList, "1.2.3.4\tY".toList, "9.9.9.9\tZ".toList]

/-- The pool built from `example_source`. -/
def example_pool : ip_v4_pool :=
  [(9, [(9, [(9, [(9, 1)])])]), (1, [(2, [(3, [(4, 2)])])])]

/-- The four components of an address are `uint8_t` values. -/
def ip_ok (ip : ip_v4) : Prop := ip.1 < 256 ∧ ip.2.1 < 256 ∧ ip.2.2.1 < 256 ∧ ip.2.2.2 < 256

instance (ip : ip_v4) : Decidable (ip_ok ip) := by unfold ip_ok; infer_instance

/-- The text an accepting callback writes for a pair: the address line, `rep` times. -/
def emitted (ip : ip_v4) (rep : repeats) : Str :=
  (List.replicate rep (to_string ip ++ ['\n'])).flatten

/-- The stream content made of the given lines, each ended by a newline. -/
def lines_text (ls : List Str) : Str := (ls.map (· ++ ['\n'])).flatten

/-- The address lines a sequence of accepted pairs stands for: each address, `count` times. -/
def address_lines (ps : List (ip_v4 × repeats)) : List Str :=
  ps.flatMap fun p => List.replicate p.2 (to_string p.1)

/-- A filtering callback: emit the pair when `accept` holds of the address. -/
def emit_if (accept : ip_v4 → Bool) (ip : ip_v4) (rep : repeats) (dest : Str) : Str :=
  if accept ip = true then emit ip rep dest else dest

/-- A non-empty run of decimal digits. -/
def digit_run (t : Str) : Prop := t ≠ [] ∧ t.all is_digit = true

instance (t : Str) : Decidable (digit_run t) := by unfold digit_run; infer_instance

/-- In the words of the specification: the token is a valid non-negative integer that does
not exceed 255. -/
def valid_octet_text (t : Str) : Prop := digit_run t ∧ digits_value t ≤ 255

instance (t : Str) : Decidable (valid_octet_text t) := by unfold valid_octet_text; infer_instance

/-- The tokens the octet parser accepts, spelled out: decimal digits with a value up to 255,
optionally after a `+`; or, after a `-`, decimal digits whose value is 0 or lies in the
last 255 values of `size_t` (the negation then lands in `1..255`). -/
def octet_text (t : Str) : Prop :=
  match t with
  | '-' :: ds =>
      digit_run ds ∧
        (digits_value ds = 0 ∨ (SIZE_MAX - 254 ≤ digits_value ds ∧ digits_value ds ≤ SIZE_MAX))
  | '+' :: ds => digit_run ds ∧ digits_value ds ≤ 255
  | ds => digit_run ds ∧ digits_value ds ≤ 255

/-- The run of `extract_ip_pool` ends with an exception. -/
def fails (source : List Str) : Prop := ∃ e, (extract_ip_pool source).pool = .error e

/-- In the words of the specification: some line that is not skipped for its part count has,
among its first four tokens, one that is not a valid non-negative integer up to 255. -/
def has_invalid_token (source : List Str) : Prop :=
  ∃ line ∈ source, ¬ line_skipped line ∧ ∃ t ∈ (line_tokens line).take 4, ¬ valid_octet_text t

instance (source : List Str) : Decidable (has_invalid_token source) := by
  unfold has_invalid_token; infer_instance

instance (t : Str) : Decidable (octet_text t) := by
  unfold octet_text; split <;> infer_instance

/-- No map at level 2, 3 or 4 of the pool is empty. -/
def no_empty (pool : ip_v4_pool) : Prop :=
  ∀ e1 ∈ pool, e1.2 ≠ [] ∧ ∀ e2 ∈ e1.2, e2.2 ≠ [] ∧ ∀ e3 ∈ e2.2, e3.2 ≠ []

/-- The tokens joined by the part delimiter. -/
def join_parts : List Str → Str
  | [] => []
  | [t] => t
  | t :: t' :: ts => t ++ ip_v4_part_delimiter ++ join_parts (t' :: ts)

/-- The line whose address field consists of the first four tokens of `line`. -/
def first_four (line : Str) : Str := join_parts ((line_tokens line).take 4)

/-! ## The leaves of a pool -/

theorem feed_append {σ : Type} (cb : ip_v4 → repeats → σ → σ) (p q : List (ip_v4 × repeats))
    (s : σ) : feed cb (p ++ q) s = feed cb q (feed cb p s) := by
  simp [feed, List.foldl_append]

theorem for_each_3_eq {σ : Type} (ip : ip_v4_part × ip_v4_part × ip_v4_part)
    (range : closing_ip_parts) (cb : ip_v4 → repeats → σ → σ) (s : σ) :
    for_each_3 ip range cb s = feed cb (leaves_3 ip range) s := by
  simp [for_each_3, feed, leaves_3, List.foldl_map]

theorem for_each_2_eq {σ : Type} (ip : ip_v4_part × ip_v4_part)
    (range : ip_pool_parts closing_ip_parts) (cb : ip_v4 → repeats → σ → σ) (s : σ) :
    for_each_2 ip range cb s = feed cb (leaves_2 ip range) s := by
  induction range generalizing s with
  | nil => rfl
  | cons e rest ih =>
      have h := ih (for_each_3 (ip.1, ip.2, e.1) e.2 cb s)
      simp only [for_each_2, List.foldl_cons] at h ⊢
      rw [h, for_each_3_eq]
      simp [leaves_2, feed_append]

theorem for_each_1_eq {σ : Type} (o1 : ip_v4_part)
    (range : ip_pool_parts (ip_pool_parts closing_ip_parts)) (cb : ip_v4 → repeats → σ → σ)
    (s : σ) : for_each_1 o1 range cb s = feed cb (leaves_1 o1 range) s := by
  induction range generalizing s with
  | nil => rfl
  | cons e rest ih =>
      have h := ih (for_each_2 (o1, e.1) e.2 cb s)
      simp only [for_each_1, List.foldl_cons] at h ⊢
      rw [h, for_each_2_eq]
      simp [leaves_1, feed_append]

theorem for_each_eq {σ : Type} (pool : ip_v4_pool) (cb : ip_v4 → repeats → σ → σ) (s : σ) :
    for_each pool cb s = feed cb (leaves pool) s := by
  induction pool generalizing s with
  | nil => rfl
  | cons e rest ih =>
      have h := ih (for_each_1 e.1 e.2 cb s)
      simp only [for_each, List.foldl_cons] at h ⊢
      rw [h, for_each_1_eq]
      simp [leaves, feed_append]

theorem feed_record (ps seen : List (ip_v4 × repeats)) : feed record ps seen = seen ++ ps := by
  induction ps generalizing seen with
  | nil => simp [feed]
  | cons p ps ih =>
      have h := ih (record p.1 p.2 seen)
      simp only [feed, List.foldl_cons] at h ⊢
      rw [h]; simp [record]

theorem calls_eq (pool : ip_v4_pool) : calls pool = leaves pool := by
  simp [calls, for_each_eq, feed_record]

theorem calls_1_eq (o1 : ip_v4_part) (range : ip_pool_parts (ip_pool_parts closing_ip_parts)) :
    calls_1 o1 range = leaves_1 o1 range := by
  simp [calls_1, for_each_1_eq, feed_record]

theorem calls_2_eq (ip : ip_v4_part × ip_v4_part) (range : ip_pool_parts closing_ip_parts) :
    calls_2 ip range = leaves_2 ip range := by
  simp [calls_2, for_each_2_eq, feed_record]

/-! ## Membership and order of the leaves -/

theorem ip_gt_ne {x y : ip_v4} (h : ip_gt x y) : x ≠ y := by
  intro e; subst e; simp [ip_gt] at h

theorem mem_leaves_3 {ip : ip_v4_part × ip_v4_part × ip_v4_part} {range : closing_ip_parts}
    {p : ip_v4 × repeats} :
    p ∈ leaves_3 ip range ↔ ∃ e4 ∈ range, p = ((ip.1, ip.2.1, ip.2.2, e4.1), e4.2) := by
  simp only [leaves_3, List.mem_map]
  constructor
  · rintro ⟨e, he, rfl⟩; exact ⟨e, he, rfl⟩
  · rintro ⟨e, he, rfl⟩; exact ⟨e, he, rfl⟩

theorem mem_leaves_2 {ip : ip_v4_part × ip_v4_part} {range : ip_pool_parts closing_ip_parts}
    {p : ip_v4 × repeats} :
    p ∈ leaves_2 ip range ↔
      ∃ e3 ∈ range, ∃ e4 ∈ e3.2, p = ((ip.1, ip.2, e3.1, e4.1), e4.2) := by
  simp only [leaves_2, List.mem_flatMap, mem_leaves_3]

theorem mem_leaves_1 {o1 : ip_v4_part} {range : ip_pool_parts (ip_pool_parts closing_ip_parts)}
    {p : ip_v4 × repeats} :
    p ∈ leaves_1 o1 range ↔
      ∃ e2 ∈ range, ∃ e3 ∈ e2.2, ∃ e4 ∈ e3.2, p = ((o1, e2.1, e3.1, e4.1), e4.2) := by
  simp only [leaves_1, List.mem_flatMap, mem_leaves_2]

theorem mem_leaves {pool : ip_v4_pool} {p : ip_v4 × repeats} :
    p ∈ leaves pool ↔
      ∃ e1 ∈ pool, ∃ e2 ∈ e1.2, ∃ e3 ∈ e2.2, ∃ e4 ∈ e3.2,
        p = ((e1.1, e2.1, e3.1, e4.1), e4.2) := by
  simp only [leaves, List.mem_flatMap, mem_leaves_1]

theorem leaves_3_desc (ip : ip_v4_part × ip_v4_part × ip_v4_part) {range : closing_ip_parts}
    (h : map_ok range) : (leaves_3 ip range).Pairwise (fun p q => ip_gt p.1 q.1) := by
  unfold leaves_3
  rw [List.pairwise_map]
  exact h.imp (fun {a b} hab => by simp [ip_gt]; exact hab)

theorem leaves_2_desc (ip : ip_v4_part × ip_v4_part) {range : ip_pool_parts closing_ip_parts}
    (h : map_ok range) (h3 : ∀ e3 ∈ range, map_ok e3.2) :
    (leaves_2 ip range).Pairwise (fun p q => ip_gt p.1 q.1) := by
  unfold leaves_2
  rw [List.pairwise_flatMap]
  refine ⟨fun e he => leaves_3_desc _ (h3 e he), h.imp ?_⟩
  intro a b hab x hx y hy
  obtain ⟨_, _, rfl⟩ := mem_leaves_3.1 hx
  obtain ⟨_, _, rfl⟩ := mem_leaves_3.1 hy
  simp [ip_gt]; exact Or.inl hab

theorem leaves_1_desc (o1 : ip_v4_part) {range : ip_pool_parts (ip_pool_parts closing_ip_parts)}
    (h : map_ok range) (h2 : ∀ e2 ∈ range, map_ok e2.2 ∧ ∀ e3 ∈ e2.2, map_ok e3.2) :
    (leaves_1 o1 range).Pairwise (fun p q => ip_gt p.1 q.1) := by
  unfold leaves_1
  rw [List.pairwise_flatMap]
  refine ⟨fun e he => leaves_2_desc _ (h2 e he).1 (h2 e he).2, h.imp ?_⟩
  intro a b hab x hx y hy
  obtain ⟨_, _, _, _, rfl⟩ := mem_leaves_2.1 hx
  obtain ⟨_, _, _, _, rfl⟩ := mem_leaves_2.1 hy
  simp [ip_gt]; exact Or.inl hab

theorem leaves_desc {pool : ip_v4_pool} (h : pool_ok pool) :
    (leaves pool).Pairwise (fun p q => ip_gt p.1 q.1) := by
  unfold leaves
  rw [List.pairwise_flatMap]
  refine ⟨fun e he => leaves_1_desc _ (h.2 e he).1 (h.2 e he).2, h.1.imp ?_⟩
  intro a b hab x hx y hy
  obtain ⟨_, _, _, _, _, _, rfl⟩ := mem_leaves_1.1 hx
  obtain ⟨_, _, _, _, _, _, rfl⟩ := mem_leaves_1.1 hy
  simp [ip_gt]; exact Or.inl hab

theorem leaves_nodup {pool : ip_v4_pool} (h : pool_ok pool) :
    ((leaves pool).map Prod.fst).Nodup := by
  unfold List.Nodup
  rw [List.pairwise_map]
  exact (leaves_desc h).imp (fun hab => ip_gt_ne hab)

theorem map_find_eq_some {β : Type} {m : List (ip_v4_part × β)} (h : map_ok m)
    (k : ip_v4_part) (v : β) : map_find k m = some v ↔ (k, v) ∈ m := by
  induction m with
  | nil => simp [map_find]
  | cons e rest ih =>
      obtain ⟨k', v'⟩ := e
      have hr : map_ok rest := (List.pairwise_cons.1 h).2
      have hk : ∀ y ∈ rest, k' > y.1 := (List.pairwise_cons.1 h).1
      by_cases hkk : k' = k
      · subst hkk
        simp only [map_find, if_true, List.mem_cons, Prod.mk.injEq, true_and]
        constructor
        · intro hv; left; exact (Option.some.inj hv).symm
        · rintro (hv | hm)
          · rw [hv]
          · have := hk _ hm; simp at this
      · simp only [map_find, if_neg hkk, List.mem_cons, Prod.mk.injEq]
        rw [ih hr]
        constructor
        · intro hm; right; exact hm
        · rintro (⟨hv, _⟩ | hm)
          · exact absurd hv.symm hkk
          · exact hm

theorem count_at_eq_some {pool : ip_v4_pool} (h : pool_ok pool) (ip : ip_v4) (c : repeats) :
    count_at pool ip = some c ↔ (ip, c) ∈ leaves pool := by
  obtain ⟨a, b, c', d⟩ := ip
  rw [mem_leaves]
  simp only [count_at, Option.bind_eq_some]
  constructor
  · rintro ⟨l2, h2, l3, h3, l4, h4, h5⟩
    have m1 := (map_find_eq_some h.1 _ _).1 h2
    have o2 := h.2 _ m1
    have m2 := (map_find_eq_some o2.1 _ _).1 h3
    have o3 := o2.2 _ m2
    have m3 := (map_find_eq_some o3.1 _ _).1 h4
    have m4 := (map_find_eq_some (o3.2 _ m3) _ _).1 h5
    exact ⟨_, m1, _, m2, _, m3, _, m4, rfl⟩
  · rintro ⟨e1, m1, e2, m2, e3, m3, e4, m4, heq⟩
    simp only [Prod.mk.injEq] at heq
    obtain ⟨⟨rfl, rfl, rfl, rfl⟩, rfl⟩ := heq
    have o2 := h.2 _ m1
    have o3 := o2.2 _ m2
    exact ⟨e1.2, (map_find_eq_some h.1 _ _).2 m1, e2.2, (map_find_eq_some o2.1 _ _).2 m2,
      e3.2, (map_find_eq_some o3.1 _ _).2 m3, (map_find_eq_some (o3.2 _ m3) _ _).2 m4⟩

/-! ## operator[] on one map -/

theorem mem_of_map_find {β : Type} {m : List (ip_v4_part × β)} {k : ip_v4_part} {v : β}
    (h : map_find k m = some v) : (k, v) ∈ m := by
  induction m with
  | nil => simp [map_find] at h
  | cons e rest ih =>
      obtain ⟨k', v'⟩ := e
      by_cases hk : k' = k
      · subst hk
        simp only [map_find, if_true, Option.some.injEq] at h
        subst h; exact List.mem_cons_self _ _
      · simp only [map_find, if_neg hk] at h
        exact List.mem_cons_of_mem _ (ih h)

theorem map_find_none_of_lt {β : Type} {m : List (ip_v4_part × β)} {k : ip_v4_part}
    (h : ∀ e ∈ m, e.1 < k) : map_find k m = none := by
  induction m with
  | nil => rfl
  | cons e rest ih =>
      obtain ⟨k', v'⟩ := e
      have hk : k' < k := h (k', v') (List.mem_cons_self _ _)
      have hne : ¬ k' = k := by unfold ip_v4_part at *; omega
      simp only [map_find, if_neg hne]
      exact ih (fun e he => h e (List.mem_cons_of_mem _ he))

theorem mem_map_index {β : Type} (dflt : β) (k : ip_v4_part) (f : β → β)
    {m : List (ip_v4_part × β)} {e : ip_v4_part × β} (he : e ∈ map_index dflt k f m) :
    e ∈ m ∨ e = (k, f dflt) ∨ ∃ v, (k, v) ∈ m ∧ e = (k, f v) := by
  induction m with
  | nil =>
      simp only [map_index, List.mem_singleton] at he
      exact Or.inr (Or.inl he)
  | cons x rest ih =>
      obtain ⟨k', v'⟩ := x
      by_cases hk : k' = k
      · subst hk
        simp only [map_index, if_true, List.mem_cons] at he
        rcases he with he | he
        · exact Or.inr (Or.inr ⟨v', List.mem_cons_self _ _, he⟩)
        · exact Or.inl (List.mem_cons_of_mem _ he)
      · by_cases hgt : k' > k
        · simp only [map_index, if_neg hk, if_pos hgt, List.mem_cons] at he
          rcases he with he | he
          · exact Or.inl (he ▸ List.mem_cons_self _ _)
          · rcases ih he with h | h | ⟨v, hv, h⟩
            · exact Or.inl (List.mem_cons_of_mem _ h)
            · exact Or.inr (Or.inl h)
            · exact Or.inr (Or.inr ⟨v, List.mem_cons_of_mem _ hv, h⟩)
        · simp only [map_index, if_neg hk, if_neg hgt, List.mem_cons] at he
          rcases he with he | he | he
          · exact Or.inr (Or.inl he)
          · exact Or.inl (he ▸ List.mem_cons_self _ _)
          · exact Or.inl (List.mem_cons_of_mem _ he)

theorem map_index_keys {β : Type} (dflt : β) (k : ip_v4_part) (f : β → β)
    {m : List (ip_v4_part × β)} {e : ip_v4_part × β} (he : e ∈ map_index dflt k f m) :
    e.1 = k ∨ ∃ e' ∈ m, e'.1 = e.1 := by
  rcases mem_map_index dflt k f he with h | h | ⟨v, _, h⟩
  · exact Or.inr ⟨e, h, rfl⟩
  · exact Or.inl (by rw [h])
  · exact Or.inl (by rw [h])

theorem map_index_ok {β : Type} (dflt : β) (k : ip_v4_part) (f : β → β)
    {m : List (ip_v4_part × β)} (h : map_ok m) : map_ok (map_index dflt k f m) := by
  induction m with
  | nil => simp [map_index, map_ok]
  | cons x rest ih =>
      obtain ⟨k', v'⟩ := x
      have hr : map_ok rest := (List.pairwise_cons.1 h).2
      have hk' : ∀ y ∈ rest, k' > y.1 := (List.pairwise_cons.1 h).1
      by_cases hk : k' = k
      · subst hk
        simp only [map_index, if_true]
        exact List.pairwise_cons.2 ⟨hk', hr⟩
      · by_cases hgt : k' > k
        · simp only [map_index, if_neg hk, if_pos hgt]
          refine List.pairwise_cons.2 ⟨?_, ih hr⟩
          intro y hy
          rcases map_index_keys dflt k f hy with h1 | ⟨e', he', h1⟩
          · show k' > y.1
            rw [h1]; exact hgt
          · show k' > y.1
            rw [← h1]; exact hk' e' he'
        · simp only [map_index, if_neg hk, if_neg hgt]
          refine List.pairwise_cons.2 ⟨?_, h⟩
          intro y hy
          show k > y.1
          rcases List.mem_cons.1 hy with h1 | h1
          · rw [h1]; show k > k'; unfold ip_v4_part at *; omega
          · have := hk' y h1; unfold ip_v4_part at *; omega

theorem map_find_map_index {β : Type} (dflt : β) (k : ip_v4_part) (f : β → β)
    {m : List (ip_v4_part × β)} (h : map_ok m) (k' : ip_v4_part) :
    map_find k' (map_index dflt k f m) =
      if k' = k then some (f (map_at dflt k m)) else map_find k' m := by
  induction m with
  | nil =>
      by_cases hk : k' = k
      · subst hk; simp [map_index, map_find, map_at]
      · have hk2 : ¬ k = k' := fun e => hk e.symm
        simp [map_index, map_find, hk, hk2]
  | cons x rest ih =>
      obtain ⟨k0, v0⟩ := x
      have hr : map_ok rest := (List.pairwise_cons.1 h).2
      have hk0 : ∀ y ∈ rest, k0 > y.1 := (List.pairwise_cons.1 h).1
      by_cases hk : k0 = k
      · subst hk
        by_cases hkk : k' = k0
        · subst hkk; simp [map_index, map_find, map_at]
        · have hkk2 : ¬ k0 = k' := fun e => hkk e.symm
          simp [map_index, map_find, hkk, hkk2]
      · by_cases hgt : k0 > k
        · simp only [map_index, if_neg hk, if_pos hgt, map_find, map_at]
          by_cases hkk : k0 = k'
          · subst hkk
            have : ¬ k0 = k := hk
            simp [this]
          · simp only [if_neg hkk]
            rw [ih hr]; rfl
        · have hnone : map_find k rest = none :=
            map_find_none_of_lt (fun e he => by have := hk0 e he; unfold ip_v4_part at *; omega)
          simp only [map_index, if_neg hk, if_neg hgt, map_find, map_at, hnone]
          by_cases hkk : k' = k
          · subst hkk; simp
          · have hkk2 : ¬ k = k' := fun e => hkk e.symm
            simp [hkk, hkk2]

theorem map_at_map_index {β : Type} (dflt : β) (k : ip_v4_part) (f : β → β)
    {m : List (ip_v4_part × β)} (h : map_ok m) (k' : ip_v4_part) :
    map_at dflt k' (map_index dflt k f m) =
      if k' = k then f (map_at dflt k m) else map_at dflt k' m := by
  unfold map_at
  rw [map_find_map_index dflt k f h k']
  by_cases hk : k' = k
  · subst hk; simp [map_at]
  · simp [hk]

theorem all_vals_map_index {β : Type} {P : β → Prop} (dflt : β) (k : ip_v4_part) (f : β → β)
    {m : List (ip_v4_part × β)} (h : all_vals P m) (hd : P (f dflt))
    (hf : ∀ v, (k, v) ∈ m → P v → P (f v)) : all_vals P (map_index dflt k f m) := by
  intro e he
  rcases mem_map_index dflt k f he with h1 | h1 | ⟨v, hv, h1⟩
  · exact h e h1
  · rw [h1]; exact hd
  · rw [h1]; exact hf v hv (h _ hv)

theorem all_vals_map_at {β : Type} {P : β → Prop} (dflt : β) (k : ip_v4_part)
    {m : List (ip_v4_part × β)} (h : all_vals P m) (hd : P dflt) : P (map_at dflt k m) := by
  unfold map_at
  cases hf : map_find k m with
  | none => exact hd
  | some v => exact h _ (mem_of_map_find hf)
/-! ## The increment of a count -/

theorem count_at_eq_map_at (pool : ip_v4_pool) (ip : ip_v4) :
    count_at pool ip =
      map_find ip.2.2.2 (map_at [] ip.2.2.1 (map_at [] ip.2.1 (map_at [] ip.1 pool))) := by
  unfold count_at map_at
  cases h1 : map_find ip.1 pool with
  | none => simp [map_find]
  | some l2 =>
      cases h2 : map_find ip.2.1 l2 with
      | none => simp [map_find, h2]
      | some l3 =>
          cases h3 : map_find ip.2.2.1 l3 with
          | none => simp [map_find, h2, h3]
          | some l4 => simp [h2, h3]

theorem pool_ok_iff (pool : ip_v4_pool) :
    pool_ok pool ↔ map_ok pool ∧
      all_vals (fun l2 => map_ok l2 ∧
        all_vals (fun l3 => map_ok l3 ∧ all_vals (fun l4 => map_ok l4) l3) l2) pool :=
  Iff.rfl

theorem map_ok_nil {β : Type} : map_ok ([] : List (ip_v4_part × β)) := List.Pairwise.nil

theorem all_vals_nil {β : Type} (P : β → Prop) : all_vals P ([] : List (ip_v4_part × β)) := by
  intro e he; cases he

theorem increment_ok {pool : ip_v4_pool} (h : pool_ok pool) (a b c d : ip_v4_part) :
    pool_ok (increment pool a b c d) := by
  rw [pool_ok_iff] at h ⊢
  have step4 : ∀ l4 : closing_ip_parts, map_ok l4 → map_ok (map_index 0 d (· + 1) l4) :=
    fun l4 h4 => map_index_ok _ _ _ h4
  have step3 : ∀ l3 : ip_pool_parts closing_ip_parts,
      (map_ok l3 ∧ all_vals (fun l4 => map_ok l4) l3) →
      (map_ok (map_index [] c (map_index 0 d (· + 1)) l3) ∧
        all_vals (fun l4 => map_ok l4) (map_index [] c (map_index 0 d (· + 1)) l3)) :=
    fun l3 h3 => ⟨map_index_ok _ _ _ h3.1,
      all_vals_map_index _ _ _ h3.2 (step4 _ map_ok_nil) (fun v _ hv => step4 v hv)⟩
  have step2 : ∀ l2 : ip_pool_parts (ip_pool_parts closing_ip_parts),
      (map_ok l2 ∧ all_vals (fun l3 => map_ok l3 ∧ all_vals (fun l4 => map_ok l4) l3) l2) →
      (map_ok (map_index [] b (map_index [] c (map_index 0 d (· + 1))) l2) ∧
        all_vals (fun l3 => map_ok l3 ∧ all_vals (fun l4 => map_ok l4) l3)
          (map_index [] b (map_index [] c (map_index 0 d (· + 1))) l2)) :=
    fun l2 h2 => ⟨map_index_ok _ _ _ h2.1,
      all_vals_map_index _ _ _ h2.2 (step3 _ ⟨map_ok_nil, all_vals_nil _⟩)
        (fun v _ hv => step3 v hv)⟩
  exact ⟨map_index_ok _ _ _ h.1,
    all_vals_map_index _ _ _ h.2 (step2 _ ⟨map_ok_nil, all_vals_nil _⟩)
      (fun v _ hv => step2 v hv)⟩

theorem count_at_increment {pool : ip_v4_pool} (h : pool_ok pool) (a b c d : ip_v4_part)
    (ip : ip_v4) :
    count_at (increment pool a b c d) ip =
      if ip = (a, b, c, d) then some ((count_at pool (a, b, c, d)).getD 0 + 1)
      else count_at pool ip := by
  obtain ⟨a', b', c', d'⟩ := ip
  rw [pool_ok_iff] at h
  have h2 := all_vals_map_at [] a h.2 ⟨map_ok_nil, all_vals_nil _⟩
  have h3 := all_vals_map_at [] b h2.2 ⟨map_ok_nil, all_vals_nil _⟩
  have h4 : map_ok (map_at [] c (map_at [] b (map_at [] a pool))) :=
    all_vals_map_at [] c h3.2 map_ok_nil
  simp only [count_at_eq_map_at, increment]
  rw [map_at_map_index _ _ _ h.1]
  by_cases ha : a' = a
  · subst ha
    simp only [if_true]
    rw [map_at_map_index _ _ _ h2.1]
    by_cases hb : b' = b
    · subst hb
      simp only [if_true]
      rw [map_at_map_index _ _ _ h3.1]
      by_cases hc : c' = c
      · subst hc
        simp only [if_true]
        rw [map_find_map_index _ _ _ h4]
        by_cases hd : d' = d
        · subst hd; simp [map_at]
        · simp [hd]
      · simp [hc]
    · simp [hb]
  · simp [ha]

theorem counts_pos_increment {pool : ip_v4_pool} (h : pool_ok pool) (hp : counts_pos pool)
    (a b c d : ip_v4_part) : counts_pos (increment pool a b c d) := by
  intro ip n hn
  rw [count_at_increment h] at hn
  by_cases hip : ip = (a, b, c, d)
  · rw [if_pos hip] at hn
    have := Option.some.inj hn
    unfold repeats at *; omega
  · rw [if_neg hip] at hn
    exact hp ip n hn

/-! ## The loop of extract_ip_pool -/

theorem split_ne_nil (delims s : Str) : split delims s ≠ [] := by
  cases s with
  | nil => simp [split]
  | cons c cs =>
      unfold split
      split
      · simp
      · split <;> simp

theorem extract_loop_cons (line_id : Nat) (pool : ip_v4_pool) (log : List log_record)
    (line : Str) (rest : List Str) :
    extract_loop line_id pool log (line :: rest) =
      if (line_tokens line).length < 4 then
        extract_loop (line_id + 1) pool
          (log ++ [.ip_parts_count (line_tokens line).length 4 line_id]) rest
      else
        match transform ((line_tokens line).take 4) with
        | .error e => ⟨log, .error e⟩
        | .ok parts =>
            extract_loop (line_id + 1)
              (increment pool (parts.getD 0 0) (parts.getD 1 0) (parts.getD 2 0)
                (parts.getD 3 0)) log rest := by
  have hne : (split ['\t'] line).isEmpty = false := by
    cases h : split ['\t'] line with
    | nil => exact absurd h (split_ne_nil _ _)
    | cons _ _ => rfl
  simp only [extract_loop, hne, line_tokens, ip_parts_count]
  rfl

theorem transform_ok_iff (ts : List Str) (vs : List ip_v4_part) :
    transform ts = .ok vs ↔ ts.map parse_part = vs.map Except.ok := by
  induction ts generalizing vs with
  | nil =>
      cases vs with
      | nil => simp [transform]
      | cons v vs => simp [transform]
  | cons t ts ih =>
      simp only [transform, List.map_cons]
      cases hp : parse_part t with
      | error e =>
          cases vs with
          | nil => simp
          | cons v vs => simp
      | ok v =>
          cases ht : transform ts with
          | error e =>
              cases vs with
              | nil => simp
              | cons w ws =>
                  simp only [List.map_cons, List.cons.injEq]
                  constructor
                  · intro h; cases h
                  · rintro ⟨_, h2⟩
                    have := (ih ws).2 h2
                    rw [ht] at this; cases this
          | ok us =>
              cases vs with
              | nil => simp
              | cons w ws =>
                  simp only [List.map_cons, List.cons.injEq, Except.ok.injEq]
                  constructor
                  · rintro ⟨rfl, rfl⟩
                    exact ⟨rfl, (ih us).1 ht⟩
                  · rintro ⟨h1, h2⟩
                    have := (ih ws).2 h2
                    rw [ht] at this
                    exact ⟨h1, Except.ok.inj this⟩

theorem transform_length {ts : List Str} {vs : List ip_v4_part} (h : transform ts = .ok vs) :
    vs.length = ts.length := by
  have := congrArg List.length ((transform_ok_iff ts vs).1 h)
  simpa using this.symm

theorem line_parses_to_iff (ip : ip_v4) (line : Str) :
    line_parses_to ip line ↔
      4 ≤ (line_tokens line).length ∧
        transform ((line_tokens line).take 4) = .ok [ip.1, ip.2.1, ip.2.2.1, ip.2.2.2] := by
  unfold line_parses_to
  rw [transform_ok_iff]
  rfl

theorem parts_of_transform {line : Str} {parts : List ip_v4_part}
    (hlen : ¬ (line_tokens line).length < 4)
    (h : transform ((line_tokens line).take 4) = .ok parts) :
    parts = [parts.getD 0 0, parts.getD 1 0, parts.getD 2 0, parts.getD 3 0] := by
  have hl := transform_length h
  rw [List.length_take] at hl
  have hl4 : parts.length = 4 := by omega
  match parts, hl4 with
  | [_, _, _, _], _ => rfl


theorem extract_loop_counts (lines : List Str) :
    ∀ (line_id : Nat) (pool : ip_v4_pool) (log : List log_record) (pool' : ip_v4_pool),
      (extract_loop line_id pool log lines).pool = .ok pool' →
      pool_ok pool → counts_pos pool →
      pool_ok pool' ∧ counts_pos pool' ∧
        ∀ ip, (count_at pool' ip).getD 0
          = (count_at pool ip).getD 0 + lines.countP (fun l => decide (line_parses_to ip l)) := by
  induction lines with
  | nil =>
      intro line_id pool log pool' h hok hpos
      simp only [extract_loop, Except.ok.injEq] at h
      subst h
      exact ⟨hok, hpos, fun ip => by simp⟩
  | cons line rest ih =>
      intro line_id pool log pool' h hok hpos
      rw [extract_loop_cons] at h
      by_cases hlen : (line_tokens line).length < 4
      · rw [if_pos hlen] at h
        obtain ⟨h1, h2, h3⟩ := ih _ _ _ _ h hok hpos
        refine ⟨h1, h2, fun ip => ?_⟩
        have hno : ¬ line_parses_to ip line := fun hp => by
          have := hp.1; omega
        rw [h3 ip, List.countP_cons_of_neg]
        simpa using hno
      · rw [if_neg hlen] at h
        cases ht : transform ((line_tokens line).take 4) with
        | error e => rw [ht] at h; cases h
        | ok parts =>
            rw [ht] at h
            simp only at h
            have hparts := parts_of_transform hlen ht
            obtain ⟨h1, h2, h3⟩ := ih _ _ _ _ h (increment_ok hok _ _ _ _)
              (counts_pos_increment hok hpos _ _ _ _)
            refine ⟨h1, h2, fun ip => ?_⟩
            rw [h3 ip, count_at_increment hok]
            have hiff : line_parses_to ip line ↔
                ip = (parts.getD 0 0, parts.getD 1 0, parts.getD 2 0, parts.getD 3 0) := by
              rw [line_parses_to_iff, ht]
              constructor
              · rintro ⟨_, hp⟩
                have hp := Except.ok.inj hp
                rw [hp]; rfl
              · intro hip
                refine ⟨by omega, ?_⟩
                rw [hip]
                exact congrArg Except.ok hparts
            by_cases hip : ip = (parts.getD 0 0, parts.getD 1 0, parts.getD 2 0, parts.getD 3 0)
            · rw [if_pos hip, List.countP_cons_of_pos]
              · rw [← hip]; simp; ring
              · simpa using hiff.2 hip
            · rw [if_neg hip, List.countP_cons_of_neg]
              simpa using fun hp => hip (hiff.1 hp)

theorem pool_ok_nil : pool_ok [] := by decide

theorem counts_pos_nil : counts_pos [] := by
  intro ip c h; simp [count_at, map_find] at h

/-! ## Text of an address -/

theorem digitChar_is_digit (n : Nat) (h : n < 10) : is_digit (Nat.digitChar n) = true := by
  interval_cases n <;> rfl

theorem toDigitsCore_is_digit (fuel : Nat) :
    ∀ (n : Nat) (ds : List Char), (∀ c ∈ ds, is_digit c = true) →
      ∀ c ∈ Nat.toDigitsCore 10 fuel n ds, is_digit c = true := by
  induction fuel with
  | zero => intro n ds hds c hc; simp only [Nat.toDigitsCore] at hc; exact hds c hc
  | succ fuel ih =>
      intro n ds hds c hc
      have hd : is_digit (Nat.digitChar (n % 10)) = true :=
        digitChar_is_digit _ (Nat.mod_lt _ (by decide))
      have hds' : ∀ c ∈ Nat.digitChar (n % 10) :: ds, is_digit c = true := by
        intro c hc
        rcases List.mem_cons.1 hc with h | h
        · rw [h]; exact hd
        · exact hds c h
      simp only [Nat.toDigitsCore] at hc
      split at hc
      · exact hds' c hc
      · exact ih _ _ hds' c hc

theorem std_to_string_is_digit (n : Nat) : ∀ c ∈ std_to_string n, is_digit c = true := by
  unfold std_to_string Nat.toDigits
  exact toDigitsCore_is_digit _ _ _ (fun c hc => by cases hc)

theorem std_to_string_no_delim (n : Nat) (delim : Char) (h : is_digit delim = false) :
    ∀ c ∈ std_to_string n, c ≠ delim := by
  intro c hc e
  have := std_to_string_is_digit n c hc
  rw [e, h] at this
  cases this

theorem split_no_delim (delim : Char) (a : Str) (h : ∀ c ∈ a, c ≠ delim) :
    split [delim] a = [a] := by
  induction a with
  | nil => rfl
  | cons x xs ih =>
      have hx : x ≠ delim := h x (List.mem_cons_self _ _)
      have hxs := ih (fun c hc => h c (List.mem_cons_of_mem _ hc))
      simp [split, hxs, hx]

theorem split_append_delim (delim : Char) (a b : Str) (h : ∀ c ∈ a, c ≠ delim) :
    split [delim] (a ++ delim :: b) = a :: split [delim] b := by
  induction a with
  | nil => simp [split]
  | cons x xs ih =>
      have hx : x ≠ delim := h x (List.mem_cons_self _ _)
      have hxs := ih (fun c hc => h c (List.mem_cons_of_mem _ hc))
      simp [split, hxs, hx]

theorem split_to_string (ip : ip_v4) :
    split ip_v4_part_delimiter (to_string ip) =
      [std_to_string ip.1, std_to_string ip.2.1, std_to_string ip.2.2.1,
        std_to_string ip.2.2.2] := by
  have hd : ∀ n, ∀ c ∈ std_to_string n, c ≠ '.' :=
    fun n => std_to_string_no_delim n '.' (by decide)
  unfold to_string ip_v4_part_delimiter
  simp only [List.append_assoc, List.singleton_append, List.cons_append, List.nil_append]
  rw [split_append_delim _ _ _ (hd _), split_append_delim _ _ _ (hd _),
    split_append_delim _ _ _ (hd _), split_no_delim _ _ (hd _)]

set_option maxRecDepth 100000 in
theorem parse_part_std_to_string : ∀ n, n < 256 → parse_part (std_to_string n) = .ok n := by
  decide

theorem to_string_inj {x y : ip_v4} (hx : ip_ok x) (hy : ip_ok y)
    (h : to_string x = to_string y) : x = y := by
  have hs := congrArg (split ip_v4_part_delimiter) h
  rw [split_to_string, split_to_string] at hs
  simp only [List.cons.injEq, and_true] at hs
  obtain ⟨h1, h2, h3, h4⟩ := hs
  have e : ∀ a b : Nat, a < 256 → b < 256 → std_to_string a = std_to_string b → a = b := by
    intro a b ha hb hab
    have h1 := parse_part_std_to_string a ha
    rw [hab, parse_part_std_to_string b hb] at h1
    exact (Except.ok.inj h1).symm
  obtain ⟨a, b, c, d⟩ := x
  obtain ⟨a', b', c', d'⟩ := y
  simp only [ip_ok] at hx hy
  simp only [Prod.mk.injEq]
  exact ⟨e _ _ hx.1 hy.1 h1, e _ _ hx.2.1 hy.2.1 h2, e _ _ hx.2.2.1 hy.2.2.1 h3,
    e _ _ hx.2.2.2 hy.2.2.2 h4⟩

theorem to_string_no_newline (ip : ip_v4) : ∀ c ∈ to_string ip, c ≠ '\n' := by
  have hd : ∀ n, ∀ c ∈ std_to_string n, c ≠ '\n' :=
    fun n => std_to_string_no_delim n '\n' (by decide)
  intro c hc
  simp only [to_string, ip_v4_part_delimiter, List.mem_append, List.mem_singleton] at hc
  rcases hc with ((((((h | h) | h) | h) | h) | h) | h)
  · exact hd _ c h
  · rw [h]; decide
  · exact hd _ c h
  · rw [h]; decide
  · exact hd _ c h
  · rw [h]; decide
  · exact hd _ c h

/-! ## Emission -/

theorem generate_n_eq (delim value : Str) (n : Nat) (dest : Str) :
    generate_n delim value n dest = dest ++ (List.replicate n (value ++ delim)).flatten := by
  induction n generalizing dest with
  | zero => simp [generate_n]
  | succ n ih => simp [generate_n, ih, List.replicate_succ]

theorem emit_eq (ip : ip_v4) (rep : repeats) (dest : Str) :
    emit ip rep dest = dest ++ emitted ip rep := by
  simp [emit, emitted, generate_n_eq]

theorem emit_any_eq (ip : ip_v4) (rep : repeats) (dest : Str) :
    emit_any ip rep dest = if does_ip_fit_filter ip = true then dest ++ emitted ip rep else dest := by
  unfold emit_any
  cases does_ip_fit_filter ip <;> simp [emitted, generate_n_eq]

theorem emitted_eq_lines_text (ip : ip_v4) (rep : repeats) :
    emitted ip rep = lines_text (List.replicate rep (to_string ip)) := by
  simp [emitted, lines_text]

theorem lines_text_append (a b : List Str) : lines_text (a ++ b) = lines_text a ++ lines_text b := by
  simp [lines_text]

theorem feed_emit (ps : List (ip_v4 × repeats)) (dest : Str) :
    feed emit ps dest = dest ++ lines_text (address_lines ps) := by
  induction ps generalizing dest with
  | nil => simp [feed, address_lines, lines_text]
  | cons p ps ih =>
      have h := ih (emit p.1 p.2 dest)
      simp only [feed, List.foldl_cons] at h ⊢
      rw [h, emit_eq, emitted_eq_lines_text]
      simp [address_lines, lines_text_append]

theorem feed_filtered (accept : ip_v4 → Bool) (ps : List (ip_v4 × repeats)) (dest : Str) :
    feed (fun ip rep dest => if accept ip = true then dest ++ emitted ip rep else dest) ps dest
      = dest ++ lines_text (address_lines (ps.filter fun p => accept p.1)) := by
  induction ps generalizing dest with
  | nil => simp [feed, address_lines, lines_text]
  | cons p ps ih =>
      simp only [feed, List.foldl_cons] at ih ⊢
      rw [ih]
      by_cases hp : accept p.1 = true
      · simp [hp, emitted_eq_lines_text, address_lines, lines_text_append]
      · simp [hp]

theorem address_lines_no_newline (ps : List (ip_v4 × repeats)) :
    ∀ l ∈ address_lines ps, ∀ c ∈ l, c ≠ '\n' := by
  intro l hl
  simp only [address_lines, List.mem_flatMap, List.mem_replicate] at hl
  obtain ⟨p, _, _, rfl⟩ := hl
  exact to_string_no_newline p.1

theorem split_lines_text (ls : List Str) (h : ∀ l ∈ ls, ∀ c ∈ l, c ≠ '\n') :
    split ['\n'] (lines_text ls) = ls ++ [[]] := by
  induction ls with
  | nil => rfl
  | cons l ls ih =>
      have h1 := h l (List.mem_cons_self _ _)
      have h2 := ih (fun l hl => h l (List.mem_cons_of_mem _ hl))
      have e : lines_text (l :: ls) = l ++ '\n' :: lines_text ls := by simp [lines_text]
      rw [e, split_append_delim _ _ _ h1, h2]; rfl

theorem written_lines_lines_text (ls : List Str) (h : ∀ l ∈ ls, ∀ c ∈ l, c ≠ '\n') :
    written_lines (lines_text ls) = ls := by
  unfold written_lines
  rw [split_lines_text ls h]
  simp

theorem line_count_append (a b : Str) : line_count (a ++ b) = line_count a + line_count b := by
  simp [line_count, List.count_append]

theorem line_count_lines_text (ls : List Str) (h : ∀ l ∈ ls, ∀ c ∈ l, c ≠ '\n') :
    line_count (lines_text ls) = ls.length := by
  induction ls with
  | nil => rfl
  | cons l ls ih =>
      have h1 := h l (List.mem_cons_self _ _)
      have h2 := ih (fun l hl => h l (List.mem_cons_of_mem _ hl))
      have e : lines_text (l :: ls) = l ++ ('\n' :: lines_text ls) := by simp [lines_text]
      have hl : List.count '\n' l = 0 := List.count_eq_zero.2 (fun hc => h1 _ hc rfl)
      rw [e, line_count_append]
      simp only [line_count] at h2 ⊢
      rw [hl, List.count_cons_self, h2, List.length_cons]
      omega

theorem address_lines_length (ps : List (ip_v4 × repeats)) :
    (address_lines ps).length = (ps.map Prod.snd).sum := by
  induction ps with
  | nil => rfl
  | cons p ps ih =>
      simp only [address_lines, List.flatMap_cons, List.length_append, List.length_replicate,
        List.map_cons, List.sum_cons] at ih ⊢
      rw [ih]

theorem address_lines_count (ps : List (ip_v4 × repeats)) (ip : ip_v4) (hip : ip_ok ip)
    (hps : ∀ p ∈ ps, ip_ok p.1) :
    (address_lines ps).count (to_string ip) = (ps.map fun p => if p.1 = ip then p.2 else 0).sum := by
  induction ps with
  | nil => rfl
  | cons p ps ih =>
      have h1 := hps p (List.mem_cons_self _ _)
      have h2 := ih (fun q hq => hps q (List.mem_cons_of_mem _ hq))
      simp only [address_lines, List.flatMap_cons, List.count_append, List.map_cons,
        List.sum_cons] at h2 ⊢
      rw [h2]
      congr 1
      by_cases e : p.1 = ip
      · rw [if_pos e, e]; simp
      · rw [if_neg e]
        have : to_string p.1 ≠ to_string ip := fun hs => e (to_string_inj h1 hip hs)
        simp [List.count_replicate, this]

theorem indicator_sum (ps : List (ip_v4 × repeats)) (ip : ip_v4) (h : (ps.map Prod.fst).Nodup) :
    (∀ c, (ip, c) ∈ ps → (ps.map fun p => if p.1 = ip then p.2 else 0).sum = c) ∧
      ((∀ c, (ip, c) ∉ ps) → (ps.map fun p => if p.1 = ip then p.2 else 0).sum = 0) := by
  induction ps with
  | nil => simp
  | cons p ps ih =>
      obtain ⟨q, n⟩ := p
      simp only [List.map_cons, List.nodup_cons, List.mem_map, not_exists, not_and] at h
      obtain ⟨ih1, ih2⟩ := ih h.2
      by_cases e : q = ip
      · subst e
        have hno : ∀ c, (q, c) ∉ ps := fun c hc => h.1 (q, c) hc rfl
        constructor
        · intro c hc
          rcases List.mem_cons.1 hc with hc | hc
          · simp only [Prod.mk.injEq, true_and] at hc
            simp [ih2 hno, hc]
          · exact absurd hc (hno c)
        · intro hc
          exact absurd (List.mem_cons_self _ _) (hc n)
      · constructor
        · intro c hc
          rcases List.mem_cons.1 hc with hc | hc
          · simp only [Prod.mk.injEq] at hc
            exact absurd hc.1.symm e
          · simp [e, ih1 c hc]
        · intro hc
          simp [e, ih2 (fun c hc' => hc c (List.mem_cons_of_mem _ hc'))]

theorem leaves_ip_ok {pool : ip_v4_pool} (h : octets_ok pool) : ∀ p ∈ leaves pool, ip_ok p.1 := by
  intro p hp
  obtain ⟨e1, m1, e2, m2, e3, m3, e4, m4, rfl⟩ := mem_leaves.1 hp
  have o1 := h e1 m1
  have o2 := o1.2 e2 m2
  have o3 := o2.2 e3 m3
  exact ⟨o1.1, o2.1, o3.1, o3.2 e4 m4⟩

theorem leaves_indicator {pool : ip_v4_pool} (h : pool_ok pool) (ip : ip_v4) :
    ((leaves pool).map fun p => if p.1 = ip then p.2 else 0).sum = (count_at pool ip).getD 0 := by
  obtain ⟨h1, h2⟩ := indicator_sum (leaves pool) ip (leaves_nodup h)
  cases hc : count_at pool ip with
  | none =>
      apply h2
      intro c hm
      rw [(count_at_eq_some h ip c).2 hm] at hc
      cases hc
  | some c => exact h1 c ((count_at_eq_some h ip c).1 hc)

/-! ## Total of the counts -/

theorem sum_map_flatMap {α β : Type} (l : List α) (f : α → List β) (g : β → Nat) :
    ((l.flatMap f).map g).sum = (l.map fun x => ((f x).map g).sum).sum := by
  induction l with
  | nil => rfl
  | cons x xs ih => simp [List.flatMap_cons, ih]

theorem sum_map_index {β : Type} (W : β → Nat) (dflt : β) (k : ip_v4_part) (f : β → β)
    (hd : W dflt = 0) (hf : ∀ v, W (f v) = W v + 1) (m : List (ip_v4_part × β)) :
    ((map_index dflt k f m).map fun e => W e.2).sum = (m.map fun e => W e.2).sum + 1 := by
  induction m with
  | nil => simp [map_index, hf, hd]
  | cons x rest ih =>
      obtain ⟨k', v'⟩ := x
      by_cases hk : k' = k
      · simp only [map_index, if_pos hk, List.map_cons, List.sum_cons, hf]
        omega
      · by_cases hgt : k' > k
        · simp only [map_index, if_neg hk, if_pos hgt, List.map_cons, List.sum_cons, ih]
          omega
        · simp only [map_index, if_neg hk, if_neg hgt, List.map_cons, List.sum_cons, hf, hd]
          omega

theorem total_eq (pool : ip_v4_pool) :
    total pool = (pool.map fun e1 => (e1.2.map fun e2 => (e2.2.map fun e3 =>
      (e3.2.map fun e4 => e4.2).sum).sum).sum).sum := by
  simp only [total, leaves, leaves_1, leaves_2, leaves_3, sum_map_flatMap, List.map_map]
  rfl

theorem total_increment (pool : ip_v4_pool) (a b c d : ip_v4_part) :
    total (increment pool a b c d) = total pool + 1 := by
  rw [total_eq, total_eq]
  unfold increment
  have s4 : ∀ l4 : closing_ip_parts,
      ((map_index 0 d (· + 1) l4).map fun e4 => e4.2).sum = (l4.map fun e4 => e4.2).sum + 1 :=
    fun l4 => sum_map_index (fun v => v) 0 d (· + 1) rfl (fun _ => rfl) l4
  have s3 := fun l3 : ip_pool_parts closing_ip_parts =>
    sum_map_index (fun l4 : closing_ip_parts => (l4.map fun e4 => e4.2).sum) [] c
      (map_index 0 d (· + 1)) rfl s4 l3
  have s2 := fun l2 : ip_pool_parts (ip_pool_parts closing_ip_parts) =>
    sum_map_index (fun l3 : ip_pool_parts closing_ip_parts =>
      (l3.map fun e3 => (e3.2.map fun e4 => e4.2).sum).sum) [] b
      (map_index [] c (map_index 0 d (· + 1))) rfl s3 l2
  exact sum_map_index (fun l2 : ip_pool_parts (ip_pool_parts closing_ip_parts) =>
      (l2.map fun e2 => (e2.2.map fun e3 => (e3.2.map fun e4 => e4.2).sum).sum).sum) [] a
      (map_index [] b (map_index [] c (map_index 0 d (· + 1)))) rfl s2 pool

theorem transform_accepted {ts : List Str} {vs : List ip_v4_part} (h : transform ts = .ok vs) :
    ∀ t ∈ ts, accepted t = true := by
  intro t ht
  have hm := (transform_ok_iff ts vs).1 h
  have : parse_part t ∈ vs.map Except.ok := by
    rw [← hm]; exact List.mem_map_of_mem _ ht
  obtain ⟨v, _, hv⟩ := List.mem_map.1 this
  unfold accepted
  rw [← hv]

theorem extract_loop_total (lines : List Str) :
    ∀ (line_id : Nat) (pool : ip_v4_pool) (log : List log_record) (pool' : ip_v4_pool),
      (extract_loop line_id pool log lines).pool = .ok pool' →
      total pool' = total pool + lines.countP (fun l => decide (line_parsed l)) ∧
        ∀ l ∈ lines, ¬ line_skipped l → line_parsed l := by
  induction lines with
  | nil =>
      intro line_id pool log pool' h
      simp only [extract_loop, Except.ok.injEq] at h
      subst h
      exact ⟨by simp, fun l hl => by cases hl⟩
  | cons line rest ih =>
      intro line_id pool log pool' h
      rw [extract_loop_cons] at h
      by_cases hlen : (line_tokens line).length < 4
      · rw [if_pos hlen] at h
        obtain ⟨h1, h2⟩ := ih _ _ _ _ h
        have hno : ¬ line_parsed line := fun hp => by have := hp.1; omega
        refine ⟨?_, ?_⟩
        · rw [h1, List.countP_cons_of_neg]
          simpa using hno
        · intro l hl hs
          rcases List.mem_cons.1 hl with e | e
          · subst e; exact absurd hlen hs
          · exact h2 l e hs
      · rw [if_neg hlen] at h
        cases ht : transform ((line_tokens line).take 4) with
        | error e => rw [ht] at h; cases h
        | ok parts =>
            rw [ht] at h
            simp only at h
            obtain ⟨h1, h2⟩ := ih _ _ _ _ h
            have hyes : line_parsed line := ⟨by omega, transform_accepted ht⟩
            refine ⟨?_, ?_⟩
            · rw [h1, total_increment, List.countP_cons_of_pos]
              · omega
              · simpa using hyes
            · intro l hl hs
              rcases List.mem_cons.1 hl with e | e
              · subst e; exact hyes
              · exact h2 l e hs

theorem line_count_for_each_emit (pool : ip_v4_pool) (dest : Str) :
    line_count (for_each pool emit dest) = line_count dest + total pool := by
  rw [for_each_eq, feed_emit, line_count_append,
    line_count_lines_text _ (address_lines_no_newline _), address_lines_length]
  rfl

/-! ## Traversal below fixed octets -/

theorem map_at_cons_self {β : Type} (dflt : β) (k : ip_v4_part) (v : β)
    (rest : List (ip_v4_part × β)) : map_at dflt k ((k, v) :: rest) = v := by
  simp [map_at, map_find]

theorem map_at_cons_ne {β : Type} (dflt : β) {k k' : ip_v4_part} (h : ¬ k' = k) (v : β)
    (rest : List (ip_v4_part × β)) : map_at dflt k ((k', v) :: rest) = map_at dflt k rest := by
  simp [map_at, map_find, h]

theorem filter_flatMap_key {β X : Type} (g : ip_v4_part → β → List X) (proj : X → ip_v4_part)
    (hproj : ∀ k v, ∀ x ∈ g k v, proj x = k) (dflt : β) (V : ip_v4_part) (hd : g V dflt = [])
    (m : List (ip_v4_part × β)) (hm : map_ok m) :
    (m.flatMap fun e => g e.1 e.2).filter (fun x => proj x == V) = g V (map_at dflt V m) := by
  induction m with
  | nil => simp [map_at, map_find, hd]
  | cons e rest ih =>
      obtain ⟨k, v⟩ := e
      have hr : map_ok rest := (List.pairwise_cons.1 hm).2
      have hk : ∀ y ∈ rest, k > y.1 := (List.pairwise_cons.1 hm).1
      simp only [List.flatMap_cons, List.filter_append]
      rw [ih hr]
      by_cases e : k = V
      · subst e
        have hnone : map_find k rest = none :=
          map_find_none_of_lt (fun e he => hk e he)
        have h1 : (g k v).filter (fun x => proj x == k) = g k v :=
          List.filter_eq_self.2 (fun x hx => by simpa using hproj k v x hx)
        rw [h1, map_at_cons_self]
        simp [map_at, hnone, hd]
      · have h1 : (g k v).filter (fun x => proj x == V) = [] :=
          List.filter_eq_nil_iff.2 (fun x hx => by
            have := hproj k v x hx
            simp [this, e])
        rw [h1, map_at_cons_ne dflt e]
        rfl

theorem leaves_filter_first {pool : ip_v4_pool} (h : map_ok pool) (V : ip_v4_part) :
    (leaves pool).filter (fun p => p.1.1 == V) = leaves_1 V (map_at [] V pool) := by
  unfold leaves
  exact filter_flatMap_key (fun k v => leaves_1 k v) (fun p => p.1.1)
    (fun k v x hx => by
      obtain ⟨_, _, _, _, _, _, rfl⟩ := mem_leaves_1.1 hx
      rfl) [] V rfl pool h

theorem leaves_1_filter_second (o1 : ip_v4_part)
    {range : ip_pool_parts (ip_pool_parts closing_ip_parts)} (h : map_ok range)
    (V : ip_v4_part) :
    (leaves_1 o1 range).filter (fun p => p.1.2.1 == V) = leaves_2 (o1, V) (map_at [] V range) := by
  unfold leaves_1
  exact filter_flatMap_key (fun k v => leaves_2 (o1, k) v) (fun p => p.1.2.1)
    (fun k v x hx => by
      obtain ⟨_, _, _, _, rfl⟩ := mem_leaves_2.1 hx
      rfl) [] V rfl range h

theorem flatMap_map_index_id {β X : Type} (g : ip_v4_part × β → List X) (dflt : β)
    (k : ip_v4_part) (f : β → β) (hd : g (k, f dflt) = [])
    (hf : ∀ v, g (k, f v) = g (k, v)) (m : List (ip_v4_part × β)) :
    (map_index dflt k f m).flatMap g = m.flatMap g := by
  induction m with
  | nil => simp [map_index, hd]
  | cons x rest ih =>
      obtain ⟨k', v'⟩ := x
      by_cases hk : k' = k
      · subst hk
        simp [map_index, hf]
      · by_cases hgt : k' > k
        · simp only [map_index, if_neg hk, if_pos hgt, List.flatMap_cons, ih]
        · simp only [map_index, if_neg hk, if_neg hgt, List.flatMap_cons, hd, List.nil_append]

theorem leaves_index_first (pool : ip_v4_pool) (V : ip_v4_part) :
    leaves (map_index [] V id pool) = leaves pool := by
  unfold leaves
  exact flatMap_map_index_id _ [] V id rfl (fun _ => rfl) pool

theorem leaves_index_second (pool : ip_v4_pool) (o1 o2 : ip_v4_part) :
    leaves (map_index [] o1 (map_index [] o2 id) pool) = leaves pool := by
  unfold leaves
  have h2 : ∀ l2 : ip_pool_parts (ip_pool_parts closing_ip_parts),
      leaves_1 o1 (map_index [] o2 id l2) = leaves_1 o1 l2 := by
    intro l2
    unfold leaves_1
    exact flatMap_map_index_id _ [] o2 id rfl (fun _ => rfl) l2
  exact flatMap_map_index_id _ [] o1 (map_index [] o2 id) (h2 []) (fun v => h2 v) pool

theorem sum_filter_add {α : Type} (p : α → Bool) (w : α → Nat) (l : List α) :
    ((l.filter p).map w).sum + ((l.filter (fun x => !p x)).map w).sum = (l.map w).sum := by
  induction l with
  | nil => rfl
  | cons x xs ih =>
      cases hp : p x <;> simp [List.filter_cons, hp] <;> omega

theorem line_count_feed_emit_if (accept : ip_v4 → Bool) (ps : List (ip_v4 × repeats)) :
    line_count (feed (emit_if accept) ps [])
      = ((ps.filter fun p => accept p.1).map Prod.snd).sum := by
  have e : emit_if accept
      = fun ip rep dest => if accept ip = true then dest ++ emitted ip rep else dest := by
    funext ip rep dest
    simp [emit_if, emit_eq]
  rw [e, feed_filtered, List.nil_append,
    line_count_lines_text _ (address_lines_no_newline _), address_lines_length]

theorem line_count_feed_emit (ps : List (ip_v4 × repeats)) :
    line_count (feed emit ps []) = (ps.map Prod.snd).sum := by
  rw [feed_emit, List.nil_append,
    line_count_lines_text _ (address_lines_no_newline _), address_lines_length]


/-! ## The filter of the last pass -/

theorem indicator_sum_filter (accept : ip_v4 → Bool) (ps : List (ip_v4 × repeats)) (ip : ip_v4) :
    ((ps.filter fun p => accept p.1).map fun p => if p.1 = ip then p.2 else 0).sum
      = if accept ip = true then (ps.map fun p => if p.1 = ip then p.2 else 0).sum else 0 := by
  induction ps with
  | nil => simp
  | cons p ps ih =>
      by_cases hp : accept p.1 = true
      · rw [List.filter_cons_of_pos (by simpa using hp), List.map_cons, List.sum_cons, ih]
        by_cases ha : accept ip = true
        · simp [ha]
        · have : ¬ p.1 = ip := fun e => ha (e ▸ hp)
          simp [ha, this]
      · rw [List.filter_cons_of_neg (by simpa using hp), ih]
        by_cases ha : accept ip = true
        · have : ¬ p.1 = ip := fun e => hp (e ▸ ha)
          simp [ha, this]
        · simp [ha]

theorem does_ip_fit_filter_iff (ip : ip_v4) :
    does_ip_fit_filter ip = true ↔
      (ip.1 = 46 ∨ ip.2.1 = 46 ∨ ip.2.2.1 = 46 ∨ ip.2.2.2 = 46) := by
  simp [does_ip_fit_filter, or_assoc]

theorem for_each_emit_any (pool : ip_v4_pool) (dest : Str) :
    for_each pool emit_any dest
      = dest ++ lines_text (address_lines ((leaves pool).filter fun p => does_ip_fit_filter p.1)) := by
  have e : emit_any = fun ip rep dest =>
      if does_ip_fit_filter ip = true then dest ++ emitted ip rep else dest := by
    funext ip rep dest
    exact emit_any_eq ip rep dest
  rw [for_each_eq, e, feed_filtered]

/-! ## Acceptance of tokens and failure of the run -/

theorem accepted_of_all {ts : List Str} (h : ∀ t ∈ ts, accepted t = true) :
    ∃ vs, transform ts = .ok vs := by
  induction ts with
  | nil => exact ⟨[], rfl⟩
  | cons t ts ih =>
      obtain ⟨vs, hvs⟩ := ih (fun x hx => h x (List.mem_cons_of_mem _ hx))
      have ht := h t (List.mem_cons_self _ _)
      unfold accepted at ht
      cases hp : parse_part t with
      | error e => rw [hp] at ht; cases ht
      | ok v => exact ⟨v :: vs, by simp [transform, hp, hvs]⟩

theorem transform_error_iff (ts : List Str) :
    (∃ e, transform ts = .error e) ↔ ∃ t ∈ ts, accepted t = false := by
  constructor
  · rintro ⟨e, he⟩
    by_contra hno
    have hall : ∀ t ∈ ts, accepted t = true := by
      intro t ht
      cases ha : accepted t with
      | true => rfl
      | false => exact absurd ⟨t, ht, ha⟩ hno
    obtain ⟨vs, hvs⟩ := accepted_of_all hall
    rw [hvs] at he; cases he
  · rintro ⟨t, ht, ha⟩
    cases hr : transform ts with
    | error e => exact ⟨e, rfl⟩
    | ok vs =>
        have := transform_accepted hr t ht
        rw [ha] at this; cases this

theorem extract_loop_fails_iff (lines : List Str) :
    ∀ (line_id : Nat) (pool : ip_v4_pool) (log : List log_record),
      (∃ e, (extract_loop line_id pool log lines).pool = .error e) ↔
        ∃ line ∈ lines, ¬ line_skipped line ∧
          ∃ t ∈ (line_tokens line).take 4, accepted t = false := by
  induction lines with
  | nil =>
      intro line_id pool log
      simp [extract_loop]
  | cons line rest ih =>
      intro line_id pool log
      rw [extract_loop_cons]
      by_cases hlen : (line_tokens line).length < 4
      · rw [if_pos hlen, ih]
        constructor
        · rintro ⟨l, hl, h⟩
          exact ⟨l, List.mem_cons_of_mem _ hl, h⟩
        · rintro ⟨l, hl, h⟩
          rcases List.mem_cons.1 hl with e | e
          · subst e; exact absurd hlen h.1
          · exact ⟨l, e, h⟩
      · rw [if_neg hlen]
        cases ht : transform ((line_tokens line).take 4) with
        | error e =>
            simp only
            constructor
            · intro _
              exact ⟨line, List.mem_cons_self _ _, hlen, (transform_error_iff _).1 ⟨e, ht⟩⟩
            · intro _
              exact ⟨e, rfl⟩
        | ok parts =>
            simp only
            rw [ih]
            constructor
            · rintro ⟨l, hl, h⟩
              exact ⟨l, List.mem_cons_of_mem _ hl, h⟩
            · rintro ⟨l, hl, h⟩
              rcases List.mem_cons.1 hl with e | e
              · subst e
                obtain ⟨e', he'⟩ := (transform_error_iff _).2 h.2
                rw [ht] at he'; cases he'
              · exact ⟨l, e, h⟩

theorem lcast_ret_unsigned_eq_some (s : Str) (v : Nat) :
    lcast_ret_unsigned s = some v ↔ digit_run s ∧ digits_value s ≤ SIZE_MAX ∧ v = digits_value s := by
  unfold lcast_ret_unsigned digit_run
  cases s with
  | nil => simp
  | cons c cs =>
      simp only [List.isEmpty_cons, Bool.false_eq_true, if_false, ne_eq, reduceCtorEq,
        not_false_eq_true, true_and]
      by_cases h1 : (c :: cs).all is_digit = true
      · rw [if_pos h1]
        by_cases h2 : digits_value (c :: cs) ≤ SIZE_MAX
        · rw [if_pos h2]
          simp only [Option.some.injEq, h1, h2, true_and]
          exact eq_comm
        · rw [if_neg h2]
          simp [h2]
      · rw [if_neg h1]
        simp [h1]

theorem accepted_unsigned (s : Str) (hm : s.head? ≠ some '-') (hp : s.head? ≠ some '+') :
    accepted s = true ↔ digit_run s ∧ digits_value s ≤ 255 := by
  cases s with
  | nil => simp [accepted, parse_part, lexical_cast, digit_run]
  | cons c cs =>
      have h1 : (c == '-') = false := by
        simpa using fun e => hm (by rw [e]; rfl)
      have h2 : (c == '+') = false := by
        simpa using fun e => hp (by rw [e]; rfl)
      unfold accepted parse_part lexical_cast
      simp only [h1, h2, Bool.or_self, Bool.false_eq_true, if_false]
      cases hl : lcast_ret_unsigned (c :: cs) with
      | none =>
          simp only [Bool.false_eq_true, false_iff, not_and]
          intro hd hv
          have : lcast_ret_unsigned (c :: cs) = some (digits_value (c :: cs)) :=
            (lcast_ret_unsigned_eq_some _ _).2 ⟨hd, by unfold SIZE_MAX; omega, rfl⟩
          rw [hl] at this; cases this
      | some v =>
          obtain ⟨hd, hs, hv⟩ := (lcast_ret_unsigned_eq_some _ _).1 hl
          subst hv
          simp only [numeric_cast]
          by_cases hv : digits_value (c :: cs) ≤ 255
          · simp [hv, hd]
          · simp [hv]

theorem accepted_minus (ds : Str) :
    accepted ('-' :: ds) = true ↔
      digit_run ds ∧
        (digits_value ds = 0 ∨ (SIZE_MAX - 254 ≤ digits_value ds ∧ digits_value ds ≤ SIZE_MAX)) := by
  unfold accepted parse_part lexical_cast
  simp only [beq_self_eq_true, Bool.true_or, if_true]
  cases hl : lcast_ret_unsigned ds with
  | none =>
      simp only [Bool.false_eq_true, false_iff, not_and]
      intro hd hv
      have : lcast_ret_unsigned ds = some (digits_value ds) :=
        (lcast_ret_unsigned_eq_some _ _).2 ⟨hd, by unfold SIZE_MAX at *; omega, rfl⟩
      rw [hl] at this; cases this
  | some v =>
      obtain ⟨hd, hs, hv⟩ := (lcast_ret_unsigned_eq_some _ _).1 hl
      subst hv
      simp only [numeric_cast]
      by_cases hv : (SIZE_MAX + 1 - digits_value ds) % (SIZE_MAX + 1) ≤ 255
      · have : digits_value ds = 0 ∨
            (SIZE_MAX - 254 ≤ digits_value ds ∧ digits_value ds ≤ SIZE_MAX) := by
          unfold SIZE_MAX at *; omega
        rw [if_pos hv]
        exact ⟨fun _ => ⟨hd, this⟩, fun _ => rfl⟩
      · have : ¬ (digits_value ds = 0 ∨
            (SIZE_MAX - 254 ≤ digits_value ds ∧ digits_value ds ≤ SIZE_MAX)) := by
          unfold SIZE_MAX at *; omega
        rw [if_neg hv]
        exact ⟨fun h => (by cases h), fun h => absurd h.2 this⟩

theorem accepted_plus (ds : Str) :
    accepted ('+' :: ds) = true ↔ digit_run ds ∧ digits_value ds ≤ 255 := by
  unfold accepted parse_part lexical_cast
  have h1 : ('+' == '-') = false := by decide
  simp only [h1, beq_self_eq_true, Bool.or_true, if_true, Bool.false_eq_true, if_false]
  cases hl : lcast_ret_unsigned ds with
  | none =>
      simp only [Bool.false_eq_true, false_iff, not_and]
      intro hd hv
      have : lcast_ret_unsigned ds = some (digits_value ds) :=
        (lcast_ret_unsigned_eq_some _ _).2 ⟨hd, by unfold SIZE_MAX; omega, rfl⟩
      rw [hl] at this; cases this
  | some v =>
      obtain ⟨hd, hs, hv⟩ := (lcast_ret_unsigned_eq_some _ _).1 hl
      subst hv
      simp only [numeric_cast]
      by_cases hv : digits_value ds ≤ 255
      · simp [hv, hd]
      · simp [hv]

theorem accepted_iff_octet_text (t : Str) : accepted t = true ↔ octet_text t := by
  unfold octet_text
  split
  · exact accepted_minus _
  · exact accepted_plus _
  · rename_i h1 h2
    apply accepted_unsigned
    · intro e
      cases t with
      | nil => cases e
      | cons c cs =>
          simp only [List.head?_cons, Option.some.injEq] at e
          exact h1 cs (by rw [e])
    · intro e
      cases t with
      | nil => cases e
      | cons c cs =>
          simp only [List.head?_cons, Option.some.injEq] at e
          exact h2 cs (by rw [e])

/-! ## Line numbers, the log, and splitting the input -/

theorem extract_loop_append_ok (pre rest : List Str) :
    ∀ (line_id : Nat) (pool : ip_v4_pool) (log : List log_record) (pool' : ip_v4_pool),
      (extract_loop line_id pool log pre).pool = .ok pool' →
      extract_loop line_id pool log (pre ++ rest)
        = extract_loop (line_id + pre.length) pool' (extract_loop line_id pool log pre).log rest := by
  induction pre with
  | nil =>
      intro line_id pool log pool' h
      simp only [extract_loop, Except.ok.injEq] at h
      subst h
      simp [extract_loop]
  | cons line pre ih =>
      intro line_id pool log pool' h
      rw [List.cons_append, extract_loop_cons]
      rw [extract_loop_cons] at h
      have hid : line_id + (line :: pre).length = line_id + 1 + pre.length := by
        simp only [List.length_cons]; omega
      rw [hid]
      by_cases hlen : (line_tokens line).length < 4
      · rw [if_pos hlen] at h ⊢
        rw [ih _ _ _ _ h, extract_loop_cons line_id pool log line pre, if_pos hlen]
      · rw [if_neg hlen] at h ⊢
        cases ht : transform ((line_tokens line).take 4) with
        | error e => rw [ht] at h; cases h
        | ok parts =>
            rw [ht] at h
            simp only at h ⊢
            rw [ih _ _ _ _ h, extract_loop_cons line_id pool log line pre, if_neg hlen, ht]

theorem valid_octet_text_accepted {t : Str} (h : valid_octet_text t) : octet_text t := by
  have hd : ∀ c ∈ t, is_digit c = true := by
    have := h.1.2
    simpa using this
  unfold octet_text
  split
  · have := hd '-' (List.mem_cons_self _ _)
    exact absurd this (by decide)
  · have := hd '+' (List.mem_cons_self _ _)
    exact absurd this (by decide)
  · exact h

/-! ## The records of the log -/

theorem extract_loop_log_shape (lines : List Str) :
    ∀ (line_id : Nat) (pool : ip_v4_pool) (log : List log_record),
      (∀ r ∈ log, ∃ n k, r = log_record.ip_parts_count n 4 k ∧ n < 4) →
      ∀ r ∈ (extract_loop line_id pool log lines).log,
        ∃ n k, r = log_record.ip_parts_count n 4 k ∧ n < 4 := by
  induction lines with
  | nil => intro _ _ log h; exact h
  | cons line rest ih =>
      intro line_id pool log h
      rw [extract_loop_cons]
      by_cases hlen : (line_tokens line).length < 4
      · rw [if_pos hlen]
        apply ih
        intro r hr
        rcases List.mem_append.1 hr with h1 | h1
        · exact h r h1
        · exact ⟨_, _, List.mem_singleton.1 h1, hlen⟩
      · rw [if_neg hlen]
        cases transform ((line_tokens line).take 4) with
        | error e => exact h
        | ok parts => exact ih _ _ _ h

/-! ## Invariants of the built pool -/

theorem map_index_ne_nil {β : Type} (dflt : β) (k : ip_v4_part) (f : β → β)
    (m : List (ip_v4_part × β)) : map_index dflt k f m ≠ [] := by
  cases m with
  | nil => simp [map_index]
  | cons x rest =>
      obtain ⟨k', v'⟩ := x
      unfold map_index
      split
      · simp
      · split <;> simp

theorem increment_no_empty {pool : ip_v4_pool} (h : no_empty pool) (a b c d : ip_v4_part) :
    no_empty (increment pool a b c d) := by
  have h' : all_vals (fun l2 : ip_pool_parts (ip_pool_parts closing_ip_parts) =>
      l2 ≠ [] ∧ all_vals (fun l3 : ip_pool_parts closing_ip_parts =>
        l3 ≠ [] ∧ all_vals (fun l4 : closing_ip_parts => l4 ≠ []) l3) l2) pool := h
  show all_vals (fun l2 : ip_pool_parts (ip_pool_parts closing_ip_parts) =>
      l2 ≠ [] ∧ all_vals (fun l3 : ip_pool_parts closing_ip_parts =>
        l3 ≠ [] ∧ all_vals (fun l4 : closing_ip_parts => l4 ≠ []) l3) l2) (increment pool a b c d)
  have step3 : ∀ l3 : ip_pool_parts closing_ip_parts,
      all_vals (fun l4 : closing_ip_parts => l4 ≠ []) l3 →
      all_vals (fun l4 : closing_ip_parts => l4 ≠ [])
        (map_index [] c (map_index 0 d (· + 1)) l3) :=
    fun l3 h3 => all_vals_map_index _ _ _ h3 (map_index_ne_nil _ _ _ _)
      (fun v _ _ => map_index_ne_nil _ _ _ _)
  have step2 : ∀ l2 : ip_pool_parts (ip_pool_parts closing_ip_parts),
      all_vals (fun l3 : ip_pool_parts closing_ip_parts =>
        l3 ≠ [] ∧ all_vals (fun l4 : closing_ip_parts => l4 ≠ []) l3) l2 →
      all_vals (fun l3 : ip_pool_parts closing_ip_parts =>
        l3 ≠ [] ∧ all_vals (fun l4 : closing_ip_parts => l4 ≠ []) l3)
        (map_index [] b (map_index [] c (map_index 0 d (· + 1))) l2) :=
    fun l2 h2 => all_vals_map_index _ _ _ h2
      ⟨map_index_ne_nil _ _ _ _, step3 _ (all_vals_nil _)⟩
      (fun v _ hv => ⟨map_index_ne_nil _ _ _ _, step3 v hv.2⟩)
  unfold increment
  exact all_vals_map_index _ _ _ h'
    ⟨map_index_ne_nil _ _ _ _, step2 _ (all_vals_nil _)⟩
    (fun v _ hv => ⟨map_index_ne_nil _ _ _ _, step2 v hv.2⟩)

/-- Keys below 256 and a property of every value. -/
theorem keyed_map_index {β : Type} {Q : β → Prop} (dflt : β) (k : ip_v4_part) (f : β → β)
    {m : List (ip_v4_part × β)} (h : ∀ e ∈ m, e.1 < 256 ∧ Q e.2) (hk : k < 256)
    (hd : Q (f dflt)) (hf : ∀ v, Q v → Q (f v)) :
    ∀ e ∈ map_index dflt k f m, e.1 < 256 ∧ Q e.2 := by
  intro e he
  rcases mem_map_index dflt k f he with h1 | h1 | ⟨v, hv, h1⟩
  · exact h e h1
  · rw [h1]; exact ⟨hk, hd⟩
  · rw [h1]; exact ⟨hk, hf v (h _ hv).2⟩

theorem increment_octets_ok {pool : ip_v4_pool} (h : octets_ok pool) {a b c d : ip_v4_part}
    (ha : a < 256) (hb : b < 256) (hc : c < 256) (hd : d < 256) :
    octets_ok (increment pool a b c d) := by
  have s4 : ∀ l4 : closing_ip_parts, (∀ e4 ∈ l4, e4.1 < 256) →
      ∀ e4 ∈ map_index 0 d (· + 1) l4, e4.1 < 256 := by
    intro l4 h4 e he
    have := keyed_map_index (Q := fun _ => True) 0 d (· + 1)
      (fun e he => ⟨h4 e he, trivial⟩) hd trivial (fun _ _ => trivial) e he
    exact this.1
  have s3 : ∀ l3 : ip_pool_parts closing_ip_parts,
      (∀ e3 ∈ l3, e3.1 < 256 ∧ ∀ e4 ∈ e3.2, e4.1 < 256) →
      ∀ e3 ∈ map_index [] c (map_index 0 d (· + 1)) l3, e3.1 < 256 ∧ ∀ e4 ∈ e3.2, e4.1 < 256 :=
    fun l3 h3 => keyed_map_index (Q := fun l4 : closing_ip_parts => ∀ e4 ∈ l4, e4.1 < 256)
      [] c _ h3 hc (s4 [] (fun e he => by cases he)) (fun v hv => s4 v hv)
  have s2 : ∀ l2 : ip_pool_parts (ip_pool_parts closing_ip_parts),
      (∀ e2 ∈ l2, e2.1 < 256 ∧ ∀ e3 ∈ e2.2, e3.1 < 256 ∧ ∀ e4 ∈ e3.2, e4.1 < 256) →
      ∀ e2 ∈ map_index [] b (map_index [] c (map_index 0 d (· + 1))) l2,
        e2.1 < 256 ∧ ∀ e3 ∈ e2.2, e3.1 < 256 ∧ ∀ e4 ∈ e3.2, e4.1 < 256 :=
    fun l2 h2 => keyed_map_index
      (Q := fun l3 : ip_pool_parts closing_ip_parts =>
        ∀ e3 ∈ l3, e3.1 < 256 ∧ ∀ e4 ∈ e3.2, e4.1 < 256)
      [] b _ h2 hb (s3 [] (fun e he => by cases he)) (fun v hv => s3 v hv)
  unfold increment octets_ok
  exact keyed_map_index
    (Q := fun l2 : ip_pool_parts (ip_pool_parts closing_ip_parts) =>
      ∀ e2 ∈ l2, e2.1 < 256 ∧ ∀ e3 ∈ e2.2, e3.1 < 256 ∧ ∀ e4 ∈ e3.2, e4.1 < 256)
    [] a _ h ha (s2 [] (fun e he => by cases he)) (fun v hv => s2 v hv)

theorem parse_part_lt {t : Str} {v : ip_v4_part} (h : parse_part t = .ok v) : v < 256 := by
  unfold parse_part at h
  cases hl : lexical_cast t with
  | error e => rw [hl] at h; cases h
  | ok w =>
      rw [hl] at h
      simp only [numeric_cast] at h
      by_cases hw : w ≤ 255
      · rw [if_pos hw] at h
        have := Except.ok.inj h
        unfold ip_v4_part at *
        omega
      · rw [if_neg hw] at h; cases h

theorem transform_lt {ts : List Str} {vs : List ip_v4_part} (h : transform ts = .ok vs) :
    ∀ v ∈ vs, v < 256 := by
  intro v hv
  have hm := (transform_ok_iff ts vs).1 h
  have : Except.ok v ∈ ts.map parse_part := by
    rw [hm]; exact List.mem_map_of_mem _ hv
  obtain ⟨t, _, ht⟩ := List.mem_map.1 this
  exact parse_part_lt ht

theorem getD_lt {vs : List ip_v4_part} (h : ∀ v ∈ vs, v < 256) (i : Nat) : vs.getD i 0 < 256 := by
  rw [List.getD_eq_getElem?_getD]
  cases hi : vs[i]? with
  | none => simp
  | some v => exact h v (List.getElem?_mem hi)

theorem extract_loop_shape (lines : List Str) :
    ∀ (line_id : Nat) (pool : ip_v4_pool) (log : List log_record) (pool' : ip_v4_pool),
      (extract_loop line_id pool log lines).pool = .ok pool' →
      no_empty pool → octets_ok pool → no_empty pool' ∧ octets_ok pool' := by
  induction lines with
  | nil =>
      intro line_id pool log pool' h hne hoct
      simp only [extract_loop, Except.ok.injEq] at h
      subst h
      exact ⟨hne, hoct⟩
  | cons line rest ih =>
      intro line_id pool log pool' h hne hoct
      rw [extract_loop_cons] at h
      by_cases hlen : (line_tokens line).length < 4
      · rw [if_pos hlen] at h
        exact ih _ _ _ _ h hne hoct
      · rw [if_neg hlen] at h
        cases ht : transform ((line_tokens line).take 4) with
        | error e => rw [ht] at h; cases h
        | ok parts =>
            rw [ht] at h
            simp only at h
            have hlt := transform_lt ht
            exact ih _ _ _ _ h (increment_no_empty hne _ _ _ _)
              (increment_octets_ok hoct (getD_lt hlt 0) (getD_lt hlt 1) (getD_lt hlt 2)
                (getD_lt hlt 3))

theorem extract_loop_all_skipped (lines : List Str) (h : ∀ l ∈ lines, line_skipped l) :
    ∀ (line_id : Nat) (pool : ip_v4_pool) (log : List log_record),
      (extract_loop line_id pool log lines).pool = .ok pool := by
  induction lines with
  | nil => intro _ _ _; rfl
  | cons line rest ih =>
      intro line_id pool log
      have hs : (line_tokens line).length < 4 := h line (List.mem_cons_self _ _)
      rw [extract_loop_cons, if_pos hs]
      exact ih (fun l hl => h l (List.mem_cons_of_mem _ hl)) _ _ _

theorem all_skipped_of_none_parsed {source : List Str}
    (hnone : ∀ l ∈ source, ¬ line_parsed l) (hok : ¬ fails source) :
    ∀ l ∈ source, line_skipped l := by
  intro l hl
  by_contra hs
  apply hnone l hl
  refine ⟨by unfold line_skipped at hs; omega, ?_⟩
  intro t ht
  cases ha : accepted t with
  | true => rfl
  | false =>
      exfalso
      apply hok
      exact (extract_loop_fails_iff source 1 [] []).2 ⟨l, hl, hs, t, ht, ha⟩

theorem no_empty_nil : no_empty [] := by
  intro e he; cases he

theorem octets_ok_nil : octets_ok [] := by
  intro e he; cases he

theorem filter_key_of_nodup (ps : List (ip_v4 × repeats)) (a : ip_v4) (c : repeats)
    (hnd : (ps.map Prod.fst).Nodup) (hm : (a, c) ∈ ps) :
    ps.filter (fun p => decide (p.1 = a)) = [(a, c)] := by
  induction ps with
  | nil => cases hm
  | cons p ps ih =>
      simp only [List.map_cons, List.nodup_cons, List.mem_map, not_exists, not_and] at hnd
      rcases List.mem_cons.1 hm with e | e
      · subst e
        have hno : ps.filter (fun p => decide (p.1 = a)) = [] :=
          List.filter_eq_nil_iff.2 (fun q hq => by
            have := hnd.1 q hq
            simpa using this)
        rw [List.filter_cons_of_pos (by simp), hno]
      · have hne : ¬ p.1 = a := fun e' => hnd.1 (a, c) e e'.symm
        rw [List.filter_cons_of_neg (by simpa using hne)]
        exact ih hnd.2 e

/-! ## The lookups of the passes -/

theorem map_index_of_found {β : Type} (dflt : β) (k : ip_v4_part) (f : β → β)
    {m : List (ip_v4_part × β)} (h : map_ok m) {v : β} (hf : map_find k m = some v)
    (hv : f v = v) : map_index dflt k f m = m := by
  induction m with
  | nil => simp [map_find] at hf
  | cons x rest ih =>
      obtain ⟨k', v'⟩ := x
      have hr : map_ok rest := (List.pairwise_cons.1 h).2
      have hk' : ∀ y ∈ rest, k' > y.1 := (List.pairwise_cons.1 h).1
      by_cases hk : k' = k
      · subst hk
        simp only [map_find, if_true, Option.some.injEq] at hf
        subst hf
        simp [map_index, hv]
      · simp only [map_find, if_neg hk] at hf
        by_cases hgt : k' > k
        · simp only [map_index, if_neg hk, if_pos hgt]
          rw [ih hr hf]
        · have hnone : map_find k rest = none :=
            map_find_none_of_lt (fun e he => by
              have := hk' e he; unfold ip_v4_part at *; omega)
          rw [hnone] at hf; cases hf

theorem index_first_ok {pool : ip_v4_pool} (h : pool_ok pool) (V : ip_v4_part) :
    pool_ok (map_index [] V id pool) := by
  rw [pool_ok_iff] at h ⊢
  exact ⟨map_index_ok _ _ _ h.1,
    all_vals_map_index _ _ _ h.2 ⟨map_ok_nil, all_vals_nil _⟩ (fun v _ hv => hv)⟩

theorem index_second_ok {pool : ip_v4_pool} (h : pool_ok pool) (o1 o2 : ip_v4_part) :
    pool_ok (map_index [] o1 (map_index [] o2 id) pool) := by
  rw [pool_ok_iff] at h ⊢
  have s2 : ∀ l2 : ip_pool_parts (ip_pool_parts closing_ip_parts),
      (map_ok l2 ∧ all_vals (fun l3 => map_ok l3 ∧ all_vals (fun l4 => map_ok l4) l3) l2) →
      (map_ok (map_index [] o2 id l2) ∧
        all_vals (fun l3 => map_ok l3 ∧ all_vals (fun l4 => map_ok l4) l3)
          (map_index [] o2 id l2)) :=
    fun l2 h2 => ⟨map_index_ok _ _ _ h2.1,
      all_vals_map_index _ _ _ h2.2 ⟨map_ok_nil, all_vals_nil _⟩ (fun v _ hv => hv)⟩
  exact ⟨map_index_ok _ _ _ h.1,
    all_vals_map_index _ _ _ h.2 (s2 _ ⟨map_ok_nil, all_vals_nil _⟩) (fun v _ hv => s2 v hv)⟩

theorem count_at_of_leaves {p q : ip_v4_pool} (hp : pool_ok p) (hq : pool_ok q)
    (h : leaves p = leaves q) (ip : ip_v4) : count_at p ip = count_at q ip := by
  apply Option.ext
  intro c
  simp only [Option.mem_def]
  rw [count_at_eq_some hp, count_at_eq_some hq, h]

theorem passes_pool_eq (pool : ip_v4_pool) (dest : Str) :
    (passes pool dest).1 = map_index [] 46 (map_index [] 70 id) (map_index [] 1 id pool) := rfl

theorem split_tokens_no_delim (delim : Char) (s : Str) :
    ∀ t ∈ split [delim] s, ∀ c ∈ t, c ≠ delim := by
  induction s with
  | nil => intro t ht c hc; simp [split] at ht; subst ht; cases hc
  | cons x xs ih =>
      intro t ht c hc
      by_cases hx : x = delim
      · subst hx
        simp only [split, List.contains_cons, beq_self_eq_true, Bool.true_or, if_true,
          List.mem_cons] at ht
        rcases ht with h | h
        · subst h; cases hc
        · exact ih t h c hc
      · have hcont : [delim].contains x = false := by simp [hx]
        simp only [split, hcont, Bool.false_eq_true, if_false] at ht
        cases hs : split [delim] xs with
        | nil => exact absurd hs (split_ne_nil _ _)
        | cons t0 ts =>
            rw [hs] at ht ih
            simp only [List.mem_cons] at ht
            rcases ht with h | h
            · subst h
              rcases List.mem_cons.1 hc with h' | h'
              · rw [h']; exact hx
              · exact ih t0 (List.mem_cons_self _ _) c h'
            · exact ih t (List.mem_cons_of_mem _ h) c hc

theorem split_tokens_subset (delims : Str) (s : Str) :
    ∀ t ∈ split delims s, ∀ c ∈ t, c ∈ s := by
  induction s with
  | nil => intro t ht c hc; simp [split] at ht; subst ht; cases hc
  | cons x xs ih =>
      intro t ht c hc
      by_cases hx : delims.contains x = true
      · simp only [split, hx, if_true, List.mem_cons] at ht
        rcases ht with h | h
        · subst h; cases hc
        · exact List.mem_cons_of_mem _ (ih t h c hc)
      · simp only [split, hx, Bool.false_eq_true, if_false] at ht
        cases hs : split delims xs with
        | nil => exact absurd hs (split_ne_nil _ _)
        | cons t0 ts =>
            rw [hs] at ht ih
            simp only [List.mem_cons] at ht
            rcases ht with h | h
            · subst h
              rcases List.mem_cons.1 hc with h' | h'
              · rw [h']; exact List.mem_cons_self _ _
              · exact List.mem_cons_of_mem _ (ih t0 (List.mem_cons_self _ _) c h')
            · exact List.mem_cons_of_mem _ (ih t (List.mem_cons_of_mem _ h) c hc)

theorem line_tokens_no_dot (line : Str) : ∀ t ∈ line_tokens line, ∀ c ∈ t, c ≠ '.' :=
  split_tokens_no_delim '.' _

theorem line_tokens_no_tab (line : Str) : ∀ t ∈ line_tokens line, ∀ c ∈ t, c ≠ '\t' := by
  intro t ht c hc
  have h1 := split_tokens_subset _ _ t ht c hc
  cases hs : split ['\t'] line with
  | nil => exact absurd hs (split_ne_nil _ _)
  | cons f fs =>
      rw [hs] at h1
      simp only [List.headD_cons] at h1
      exact split_tokens_no_delim '\t' line f (by rw [hs]; exact List.mem_cons_self _ _) c h1

theorem split_join_parts (ts : List Str) (hne : ts ≠ []) (h : ∀ t ∈ ts, ∀ c ∈ t, c ≠ '.') :
    split ['.'] (join_parts ts) = ts := by
  induction ts with
  | nil => exact absurd rfl hne
  | cons t ts ih =>
      cases ts with
      | nil => exact split_no_delim _ _ (h t (List.mem_cons_self _ _))
      | cons t' ts' =>
          have e : join_parts (t :: t' :: ts') = t ++ '.' :: join_parts (t' :: ts') := by
            simp [join_parts, ip_v4_part_delimiter]
          rw [e, split_append_delim _ _ _ (h t (List.mem_cons_self _ _)),
            ih (by simp) (fun x hx => h x (List.mem_cons_of_mem _ hx))]

theorem join_parts_chars (ts : List Str) : ∀ c ∈ join_parts ts, c = '.' ∨ ∃ t ∈ ts, c ∈ t := by
  induction ts with
  | nil => intro c hc; cases hc
  | cons t ts ih =>
      cases ts with
      | nil => intro c hc; exact Or.inr ⟨t, List.mem_cons_self _ _, hc⟩
      | cons t' ts' =>
          intro c hc
          simp only [join_parts, ip_v4_part_delimiter, List.mem_append, List.mem_singleton] at hc
          rcases hc with (h | h) | h
          · exact Or.inr ⟨t, List.mem_cons_self _ _, h⟩
          · exact Or.inl h
          · rcases ih c h with h' | ⟨x, hx, hcx⟩
            · exact Or.inl h'
            · exact Or.inr ⟨x, List.mem_cons_of_mem _ hx, hcx⟩

theorem line_tokens_of_no_tab (s : Str) (h : ∀ c ∈ s, c ≠ '\t') :
    line_tokens s = split ['.'] s := by
  unfold line_tokens
  rw [split_no_delim _ _ h]
  rfl

theorem line_tokens_first_four (line : Str) :
    line_tokens (first_four line) = (line_tokens line).take 4 := by
  have hne : (line_tokens line).take 4 ≠ [] := by
    cases hs : line_tokens line with
    | nil => exact absurd hs (split_ne_nil _ _)
    | cons t ts => simp
  have hsub : ∀ t ∈ (line_tokens line).take 4, t ∈ line_tokens line :=
    fun t ht => List.mem_of_mem_take ht
  have hnotab : ∀ c ∈ first_four line, c ≠ '\t' := by
    intro c hc
    rcases join_parts_chars _ c hc with h | ⟨t, ht, hct⟩
    · rw [h]; decide
    · exact line_tokens_no_tab line t (hsub t ht) c hct
  rw [line_tokens_of_no_tab _ hnotab]
  exact split_join_parts _ hne (fun t ht => line_tokens_no_dot line t (hsub t ht))

theorem extract_loop_same_tokens (line line2 : Str)
    (hlen : 4 ≤ (line_tokens line).length)
    (h : (line_tokens line2).take 4 = (line_tokens line).take 4)
    (line_id : Nat) (pool : ip_v4_pool) (log : List log_record) (rest : List Str) :
    extract_loop line_id pool log (line2 :: rest) = extract_loop line_id pool log (line :: rest) := by
  have hlen2 : 4 ≤ (line_tokens line2).length := by
    have := congrArg List.length h
    simp only [List.length_take] at this
    omega
  rw [extract_loop_cons, extract_loop_cons, if_neg (by omega), if_neg (by omega), h]

/-! ## Equality of pools from equal lookups -/

theorem map_find_head {β : Type} (k : ip_v4_part) (v : β) (rest : List (ip_v4_part × β)) :
    map_find k ((k, v) :: rest) = some v := by
  simp [map_find]

theorem map_ext {β : Type} {m m' : List (ip_v4_part × β)} (h : map_ok m) (h' : map_ok m')
    (hf : ∀ k, map_find k m = map_find k m') : m = m' := by
  induction m generalizing m' with
  | nil =>
      cases m' with
      | nil => rfl
      | cons x rest =>
          have := hf x.1
          rw [map_find_head] at this
          simp [map_find] at this
  | cons x rest ih =>
      obtain ⟨k, v⟩ := x
      have hr : map_ok rest := (List.pairwise_cons.1 h).2
      have hk : ∀ y ∈ rest, k > y.1 := (List.pairwise_cons.1 h).1
      cases m' with
      | nil =>
          have := hf k
          rw [map_find_head] at this
          simp [map_find] at this
      | cons x' rest' =>
          obtain ⟨k', v'⟩ := x'
          have hr' : map_ok rest' := (List.pairwise_cons.1 h').2
          have hk' : ∀ y ∈ rest', k' > y.1 := (List.pairwise_cons.1 h').1
          have hkk : k = k' := by
            by_contra hne
            rcases Nat.lt_or_gt_of_ne hne with hlt | hgt
            · have h1 := hf k'
              rw [map_find_head] at h1
              have hne' : ¬ k = k' := hne
              simp only [map_find, if_neg hne'] at h1
              rw [map_find_none_of_lt (fun e he => by
                have := hk e he; unfold ip_v4_part at *; omega)] at h1
              cases h1
            · have h1 := hf k
              rw [map_find_head] at h1
              have hne' : ¬ k' = k := fun e => hne e.symm
              simp only [map_find, if_neg hne'] at h1
              rw [map_find_none_of_lt (fun e he => by
                have := hk' e he; unfold ip_v4_part at *; omega)] at h1
              cases h1
          subst hkk
          have hv : v = v' := by
            have h1 := hf k
            rw [map_find_head, map_find_head] at h1
            exact Option.some.inj h1
          subst hv
          have hrest : rest = rest' := by
            apply ih hr hr'
            intro j
            by_cases hj : k = j
            · subst hj
              rw [map_find_none_of_lt (fun e he => hk e he),
                map_find_none_of_lt (fun e he => hk' e he)]
            · have h1 := hf j
              simp only [map_find, if_neg hj] at h1
              exact h1
          rw [hrest]

theorem nested_exists {β π γ : Type} (look : β → π → Option γ) (good : β → Prop)
    (hE : ∀ v, good v → ∃ p c, look v p = some c)
    {m : List (ip_v4_part × β)} (hne : m ≠ []) (hg : all_vals good m) :
    ∃ (kp : ip_v4_part × π) (c : γ), (map_find kp.1 m).bind (fun v => look v kp.2) = some c := by
  cases m with
  | nil => exact absurd rfl hne
  | cons x rest =>
      obtain ⟨p, c, hp⟩ := hE x.2 (hg x (List.mem_cons_self _ _))
      refine ⟨(x.1, p), c, ?_⟩
      obtain ⟨k, v⟩ := x
      simp only [map_find_head, Option.some_bind]
      exact hp

theorem nested_ext {β π γ : Type} (look : β → π → Option γ) (good : β → Prop)
    (hE : ∀ v, good v → ∃ p c, look v p = some c)
    (hX : ∀ v v', good v → good v' → (∀ p, look v p = look v' p) → v = v')
    {m m' : List (ip_v4_part × β)} (hm : map_ok m) (hm' : map_ok m')
    (hg : all_vals good m) (hg' : all_vals good m')
    (h : ∀ kp : ip_v4_part × π,
      (map_find kp.1 m).bind (fun v => look v kp.2)
        = (map_find kp.1 m').bind (fun v => look v kp.2)) : m = m' := by
  apply map_ext hm hm'
  intro k
  cases hf : map_find k m with
  | none =>
      cases hf' : map_find k m' with
      | none => rfl
      | some v' =>
          exfalso
          obtain ⟨p, c, hp⟩ := hE v' (hg' _ (mem_of_map_find hf'))
          have := h (k, p)
          simp only [hf, hf', Option.none_bind, Option.some_bind, hp] at this
          cases this
  | some v =>
      cases hf' : map_find k m' with
      | none =>
          exfalso
          obtain ⟨p, c, hp⟩ := hE v (hg _ (mem_of_map_find hf))
          have := h (k, p)
          simp only [hf, hf', Option.none_bind, Option.some_bind, hp] at this
          cases this
      | some v' =>
          have : v = v' := by
            apply hX v v' (hg _ (mem_of_map_find hf)) (hg' _ (mem_of_map_find hf'))
            intro p
            have := h (k, p)
            simpa only [hf, hf', Option.some_bind] using this
          rw [this]

theorem pool_ext {p q : ip_v4_pool} (hp : pool_ok p) (hq : pool_ok q)
    (np : no_empty p) (nq : no_empty q) (h : ∀ ip, count_at p ip = count_at q ip) : p = q := by
  -- level 4
  have E4 : ∀ l4 : closing_ip_parts, (map_ok l4 ∧ l4 ≠ []) →
      ∃ (d : ip_v4_part) (c : repeats), map_find d l4 = some c := by
    intro l4 h4
    cases l4 with
    | nil => exact absurd rfl h4.2
    | cons x rest => exact ⟨x.1, x.2, map_find_head _ _ _⟩
  have X4 : ∀ l4 l4' : closing_ip_parts, (map_ok l4 ∧ l4 ≠ []) → (map_ok l4' ∧ l4' ≠ []) →
      (∀ d, map_find d l4 = map_find d l4') → l4 = l4' :=
    fun l4 l4' g g' hh => map_ext g.1 g'.1 hh
  -- level 3
  have E3 : ∀ l3 : ip_pool_parts closing_ip_parts,
      (map_ok l3 ∧ l3 ≠ [] ∧ all_vals (fun l4 : closing_ip_parts => map_ok l4 ∧ l4 ≠ []) l3) →
      ∃ (kp : ip_v4_part × ip_v4_part) (c : repeats),
        (map_find kp.1 l3).bind (fun l4 => map_find kp.2 l4) = some c :=
    fun l3 g => nested_exists (fun (l4 : closing_ip_parts) d => map_find d l4) _ E4 g.2.1 g.2.2
  have X3 : ∀ l3 l3' : ip_pool_parts closing_ip_parts,
      (map_ok l3 ∧ l3 ≠ [] ∧ all_vals (fun l4 : closing_ip_parts => map_ok l4 ∧ l4 ≠ []) l3) →
      (map_ok l3' ∧ l3' ≠ [] ∧ all_vals (fun l4 : closing_ip_parts => map_ok l4 ∧ l4 ≠ []) l3') →
      (∀ kp : ip_v4_part × ip_v4_part,
        (map_find kp.1 l3).bind (fun l4 => map_find kp.2 l4)
          = (map_find kp.1 l3').bind (fun l4 => map_find kp.2 l4)) → l3 = l3' :=
    fun l3 l3' g g' hh =>
      nested_ext (fun (l4 : closing_ip_parts) d => map_find d l4) _ E4 X4 g.1 g'.1 g.2.2 g'.2.2 hh
  -- level 2
  have E2 : ∀ l2 : ip_pool_parts (ip_pool_parts closing_ip_parts),
      (map_ok l2 ∧ l2 ≠ [] ∧ all_vals (fun l3 : ip_pool_parts closing_ip_parts =>
        map_ok l3 ∧ l3 ≠ [] ∧
          all_vals (fun l4 : closing_ip_parts => map_ok l4 ∧ l4 ≠ []) l3) l2) →
      ∃ (kp : ip_v4_part × ip_v4_part × ip_v4_part) (c : repeats),
        (map_find kp.1 l2).bind (fun l3 =>
          (map_find kp.2.1 l3).bind (fun l4 => map_find kp.2.2 l4)) = some c :=
    fun l2 g => nested_exists
      (fun (l3 : ip_pool_parts closing_ip_parts) (kp : ip_v4_part × ip_v4_part) =>
        (map_find kp.1 l3).bind (fun l4 => map_find kp.2 l4)) _ E3 g.2.1 g.2.2
  have X2 : ∀ l2 l2' : ip_pool_parts (ip_pool_parts closing_ip_parts),
      (map_ok l2 ∧ l2 ≠ [] ∧ all_vals (fun l3 : ip_pool_parts closing_ip_parts =>
        map_ok l3 ∧ l3 ≠ [] ∧
          all_vals (fun l4 : closing_ip_parts => map_ok l4 ∧ l4 ≠ []) l3) l2) →
      (map_ok l2' ∧ l2' ≠ [] ∧ all_vals (fun l3 : ip_pool_parts closing_ip_parts =>
        map_ok l3 ∧ l3 ≠ [] ∧
          all_vals (fun l4 : closing_ip_parts => map_ok l4 ∧ l4 ≠ []) l3) l2') →
      (∀ kp : ip_v4_part × ip_v4_part × ip_v4_part,
        (map_find kp.1 l2).bind (fun l3 =>
            (map_find kp.2.1 l3).bind (fun l4 => map_find kp.2.2 l4))
          = (map_find kp.1 l2').bind (fun l3 =>
            (map_find kp.2.1 l3).bind (fun l4 => map_find kp.2.2 l4))) → l2 = l2' :=
    fun l2 l2' g g' hh => nested_ext
      (fun (l3 : ip_pool_parts closing_ip_parts) (kp : ip_v4_part × ip_v4_part) =>
        (map_find kp.1 l3).bind (fun l4 => map_find kp.2 l4)) _ E3 X3 g.1 g'.1 g.2.2 g'.2.2 hh
  -- the pool
  have good : ∀ r : ip_v4_pool, pool_ok r → no_empty r →
      all_vals (fun l2 : ip_pool_parts (ip_pool_parts closing_ip_parts) =>
        map_ok l2 ∧ l2 ≠ [] ∧ all_vals (fun l3 : ip_pool_parts closing_ip_parts =>
          map_ok l3 ∧ l3 ≠ [] ∧
            all_vals (fun l4 : closing_ip_parts => map_ok l4 ∧ l4 ≠ []) l3) l2) r := by
    intro r hr nr e1 m1
    have o1 := hr.2 e1 m1
    have n1 := nr e1 m1
    refine ⟨o1.1, n1.1, fun e2 m2 => ?_⟩
    have o2 := o1.2 e2 m2
    have n2 := n1.2 e2 m2
    exact ⟨o2.1, n2.1, fun e3 m3 => ⟨o2.2 e3 m3, n2.2 e3 m3⟩⟩
  exact nested_ext
    (fun (l2 : ip_pool_parts (ip_pool_parts closing_ip_parts))
        (kp : ip_v4_part × ip_v4_part × ip_v4_part) =>
      (map_find kp.1 l2).bind (fun l3 =>
        (map_find kp.2.1 l3).bind (fun l4 => map_find kp.2.2 l4))) _ E2 X2 hp.1 hq.1
    (good p hp np) (good q hq nq) (fun ip => h ip)

/-! ## Reading back the written lines -/

theorem to_string_no_tab (ip : ip_v4) : ∀ c ∈ to_string ip, c ≠ '\t' := by
  have hd : ∀ n, ∀ c ∈ std_to_string n, c ≠ '\t' :=
    fun n => std_to_string_no_delim n '\t' (by decide)
  intro c hc
  simp only [to_string, ip_v4_part_delimiter, List.mem_append, List.mem_singleton] at hc
  rcases hc with ((((((h | h) | h) | h) | h) | h) | h)
  · exact hd _ c h
  · rw [h]; decide
  · exact hd _ c h
  · rw [h]; decide
  · exact hd _ c h
  · rw [h]; decide
  · exact hd _ c h

theorem line_tokens_to_string (ip : ip_v4) :
    line_tokens (to_string ip)
      = [std_to_string ip.1, std_to_string ip.2.1, std_to_string ip.2.2.1,
          std_to_string ip.2.2.2] := by
  rw [line_tokens_of_no_tab _ (to_string_no_tab ip)]
  exact split_to_string ip

theorem transform_to_string {ip : ip_v4} (h : ip_ok ip) :
    transform ((line_tokens (to_string ip)).take 4)
      = .ok [ip.1, ip.2.1, ip.2.2.1, ip.2.2.2] := by
  rw [line_tokens_to_string, transform_ok_iff]
  simp only [List.take, List.map_cons, List.map_nil, parse_part_std_to_string _ h.1,
    parse_part_std_to_string _ h.2.1, parse_part_std_to_string _ h.2.2.1,
    parse_part_std_to_string _ h.2.2.2]

theorem line_parses_to_to_string {q : ip_v4} (hq : ip_ok q) (ip : ip_v4) :
    line_parses_to ip (to_string q) ↔ q = ip := by
  rw [line_parses_to_iff, transform_to_string hq]
  constructor
  · rintro ⟨_, h⟩
    have := Except.ok.inj h
    simp only [List.cons.injEq, and_true] at this
    obtain ⟨h1, h2, h3, h4⟩ := this
    exact Prod.ext h1 (Prod.ext h2 (Prod.ext h3 h4))
  · intro h
    subst h
    exact ⟨by rw [line_tokens_to_string]; exact Nat.le_refl 4, rfl⟩

theorem countP_address_lines (ps : List (ip_v4 × repeats)) (hps : ∀ p ∈ ps, ip_ok p.1)
    (ip : ip_v4) :
    (address_lines ps).countP (fun l => decide (line_parses_to ip l))
      = (ps.map fun p => if p.1 = ip then p.2 else 0).sum := by
  induction ps with
  | nil => rfl
  | cons p ps ih =>
      have h1 := hps p (List.mem_cons_self _ _)
      have h2 := ih (fun q hq => hps q (List.mem_cons_of_mem _ hq))
      simp only [address_lines, List.flatMap_cons, List.countP_append, List.map_cons,
        List.sum_cons] at h2 ⊢
      rw [h2]
      congr 1
      by_cases e : p.1 = ip
      · rw [if_pos e]
        have : ∀ l ∈ List.replicate p.2 (to_string p.1),
            (fun l => decide (line_parses_to ip l)) l = true := by
          intro l hl
          rw [(List.mem_replicate.1 hl).2]
          simpa using (line_parses_to_to_string h1 ip).2 e
        rw [List.countP_eq_length.2 this, List.length_replicate]
      · rw [if_neg e]
        apply List.countP_eq_zero.2
        intro l hl
        rw [(List.mem_replicate.1 hl).2]
        simpa using fun h => e ((line_parses_to_to_string h1 ip).1 h)

theorem extract_count_at {source : List Str} {pool : ip_v4_pool}
    (h : (extract_ip_pool source).pool = .ok pool) (ip : ip_v4) :
    (count_at pool ip).getD 0 = source.countP (fun l => decide (line_parses_to ip l)) := by
  obtain ⟨_, _, hcnt⟩ := extract_loop_counts source 1 [] [] pool h pool_ok_nil counts_pos_nil
  have hc := hcnt ip
  have h0 : count_at ([] : ip_v4_pool) ip = none := by simp [count_at, map_find]
  rw [h0] at hc
  simpa using hc

theorem extract_loop_log_unchanged (lines : List Str) (h : ∀ l ∈ lines, ¬ line_skipped l) :
    ∀ (line_id : Nat) (pool : ip_v4_pool) (log : List log_record),
      (extract_loop line_id pool log lines).log = log := by
  induction lines with
  | nil => intro _ _ _; rfl
  | cons line rest ih =>
      intro line_id pool log
      have hs : ¬ (line_tokens line).length < 4 := h line (List.mem_cons_self _ _)
      rw [extract_loop_cons, if_neg hs]
      cases transform ((line_tokens line).take 4) with
      | error e => rfl
      | ok parts => exact ih (fun l hl => h l (List.mem_cons_of_mem _ hl)) _ _ _

theorem option_eq_of_getD {x y : Option repeats} (hx : ∀ c, x = some c → 1 ≤ c)
    (hy : ∀ c, y = some c → 1 ≤ c) (h : x.getD 0 = y.getD 0) : x = y := by
  cases x with
  | none =>
      cases y with
      | none => rfl
      | some b =>
          have := hy b rfl
          simp only [Option.getD_none, Option.getD_some] at h
          unfold repeats at *; omega
  | some a =>
      cases y with
      | none =>
          have := hx a rfl
          simp only [Option.getD_none, Option.getD_some] at h
          unfold repeats at *; omega
      | some b =>
          simp only [Option.getD_some] at h
          rw [h]

/-! ## Properties of the specification -/

/-- C1: when `extract_ip_pool` completes, the count stored at the path of an address is the
number of input lines whose first tab-delimited field splits into at least 4 dot-separated
tokens with the first four parsing to that address; an address matched by no line has no
entry. -/
theorem extract_ip_pool_counts (source : List Str) (pool : ip_v4_pool)
    (h : (extract_ip_pool source).pool = .ok pool) (ip : ip_v4) :
    count_at pool ip =
      if source.countP (fun l => decide (line_parses_to ip l)) = 0 then none
      else some (source.countP (fun l => decide (line_parses_to ip l))) := by
  obtain ⟨_, hpos, hcnt⟩ := extract_loop_counts source 1 [] [] pool h pool_ok_nil counts_pos_nil
  have hc := hcnt ip
  have h0 : count_at ([] : ip_v4_pool) ip = none := by simp [count_at, map_find]
  rw [h0] at hc
  simp only [Option.getD_none, Nat.zero_add] at hc
  cases hf : count_at pool ip with
  | none =>
      rw [hf] at hc
      simp only [Option.getD_none] at hc
      rw [← hc]; simp
  | some c =>
      rw [hf] at hc
      simp only [Option.getD_some] at hc
      have hc1 := hpos ip c hf
      rw [← hc]
      have : ¬ c = 0 := by unfold repeats at *; omega
      simp [this]

theorem extract_ip_pool_counts_witness :
    (extract_ip_pool example_source).pool = .ok example_pool ∧
      count_at example_pool (1, 2, 3, 4) =
        if example_source.countP (fun l => decide (line_parses_to (1, 2, 3, 4) l)) = 0 then none
        else some (example_source.countP (fun l => decide (line_parses_to (1, 2, 3, 4) l))) :=
  ⟨rfl, extract_ip_pool_counts example_source example_pool rfl (1, 2, 3, 4)⟩

/-- C2: the full enumeration calls its callback once per leaf of the pool and for nothing
else: whatever the callback, it is run on the pairs of `calls pool` in order; no address
occurs twice among them; and a pair occurs exactly when the pool maps its address to its
count. -/
theorem for_each_once_per_leaf (pool : ip_v4_pool) (h : pool_ok pool) :
    (∀ (σ : Type) (callback : ip_v4 → repeats → σ → σ) (s : σ),
        for_each pool callback s = (calls pool).foldl (fun s p => callback p.1 p.2 s) s) ∧
      ((calls pool).map Prod.fst).Nodup ∧
      ∀ ip c, (ip, c) ∈ calls pool ↔ count_at pool ip = some c := by
  rw [calls_eq]
  exact ⟨fun σ cb s => for_each_eq pool cb s, leaves_nodup h,
    fun ip c => (count_at_eq_some h ip c).symm⟩

theorem for_each_once_per_leaf_witness :
    pool_ok example_pool ∧
      ((∀ (σ : Type) (callback : ip_v4 → repeats → σ → σ) (s : σ),
        for_each example_pool callback s =
          (calls example_pool).foldl (fun s p => callback p.1 p.2 s) s) ∧
      ((calls example_pool).map Prod.fst).Nodup ∧
      ∀ ip c, (ip, c) ∈ calls example_pool ↔ count_at example_pool ip = some c) :=
  ⟨by decide, for_each_once_per_leaf example_pool (by decide)⟩

/-- C3: for a pair a pass of `main` accepts, the emission callback appends exactly `count`
lines, each the text of the address followed by a newline, and nothing else (the callback of
the first three passes always, the callback of the last pass when its filter accepts);
hence in the output of the unfiltered pass the number of lines equal to the text of an
address is the count of that address in the pool, 0 when it is not in the pool. -/
theorem emission_multiplicity (pool : ip_v4_pool) (hok : pool_ok pool) (hoct : octets_ok pool) :
    (∀ ip rep dest,
        emit ip rep dest = dest ++ (List.replicate rep (to_string ip ++ ['\n'])).flatten) ∧
      (∀ ip rep dest, does_ip_fit_filter ip = true →
        emit_any ip rep dest = dest ++ (List.replicate rep (to_string ip ++ ['\n'])).flatten) ∧
      ∀ ip, ip_ok ip →
        (written_lines (for_each pool emit [])).count (to_string ip)
          = (count_at pool ip).getD 0 := by
  refine ⟨fun ip rep dest => emit_eq ip rep dest, ?_, ?_⟩
  · intro ip rep dest h
    rw [emit_any_eq, if_pos h]; rfl
  · intro ip hip
    rw [for_each_eq, feed_emit, List.nil_append,
      written_lines_lines_text _ (address_lines_no_newline _),
      address_lines_count _ ip hip (leaves_ip_ok hoct), leaves_indicator hok]

theorem emission_multiplicity_witness :
    pool_ok example_pool ∧ octets_ok example_pool ∧
      ((∀ ip rep dest,
        emit ip rep dest = dest ++ (List.replicate rep (to_string ip ++ ['\n'])).flatten) ∧
      (∀ ip rep dest, does_ip_fit_filter ip = true →
        emit_any ip rep dest = dest ++ (List.replicate rep (to_string ip ++ ['\n'])).flatten) ∧
      ∀ ip, ip_ok ip →
        (written_lines (for_each example_pool emit [])).count (to_string ip)
          = (count_at example_pool ip).getD 0) :=
  ⟨by decide, by decide, emission_multiplicity example_pool (by decide) (by decide)⟩

/-- C4: when `extract_ip_pool` completes, the unfiltered pass writes as many lines as there
are successfully parsed (not skipped) input lines; and the example input of the
specification gives the pool `(9,9,9,9) -> 1, (1,2,3,4) -> 2` and the three output lines
`9.9.9.9`, `1.2.3.4`, `1.2.3.4`. -/
theorem unfiltered_line_count :
    (∀ (source : List Str) (pool : ip_v4_pool), (extract_ip_pool source).pool = .ok pool →
        line_count (for_each pool emit []) = source.countP (fun l => decide (line_parsed l)) ∧
        line_count (for_each pool emit []) = source.countP (fun l => !decide (line_skipped l))) ∧
      (extract_ip_pool example_source).pool
        = .ok [(9, [(9, [(9, [(9, 1)])])]), (1, [(2, [(3, [(4, 2)])])])] ∧
      for_each [(9, [(9, [(9, [(9, 1)])])]), (1, [(2, [(3, [(4, 2)])])])] emit []
        = "9.9.9.9\n1.2.3.4\n1.2.3.4\n".toList ∧
      line_count "9.9.9.9\n1.2.3.4\n1.2.3.4\n".toList = 3 := by
  refine ⟨?_, rfl, rfl, rfl⟩
  intro source pool h
  obtain ⟨h1, h2⟩ := extract_loop_total source 1 [] [] pool h
  have ht : total ([] : ip_v4_pool) = 0 := rfl
  have hl : line_count ([] : Str) = 0 := rfl
  rw [line_count_for_each_emit, hl, h1, ht]
  refine ⟨by omega, ?_⟩
  simp only [Nat.zero_add]
  apply List.countP_congr
  intro l hl
  simp only [decide_eq_true_eq, Bool.not_eq_true', decide_eq_false_iff_not]
  exact ⟨fun hp hs => by have := hp.1; unfold line_skipped at hs; omega, h2 l hl⟩

theorem unfiltered_line_count_witness :
    (extract_ip_pool example_source).pool = .ok example_pool ∧
      (line_count (for_each example_pool emit [])
          = example_source.countP (fun l => decide (line_parsed l)) ∧
        line_count (for_each example_pool emit [])
          = example_source.countP (fun l => !decide (line_skipped l))) :=
  ⟨rfl, unfiltered_line_count.1 example_source example_pool rfl⟩

/-- C5: the traversal below a first octet `V`, over `pool[V]`, yields only pairs whose
address has first octet `V`; with the pairs of the full enumeration whose first octet differs
from `V` they are exactly the pairs of the full enumeration (they are its pairs with first
octet `V`, in order); and the lines emitted by the filter plus those emitted by its
complement are as many as the unfiltered pass emits. -/
theorem first_octet_filter (pool : ip_v4_pool) (h : pool_ok pool) (V : ip_v4_part) :
    (∀ p ∈ calls_1 V (map_at [] V (map_index [] V id pool)), p.1.1 = V) ∧
      (calls_1 V (map_at [] V (map_index [] V id pool))
          ++ (calls pool).filter (fun p => p.1.1 != V)).Perm (calls pool) ∧
      calls_1 V (map_at [] V (map_index [] V id pool))
        = (calls pool).filter (fun p => p.1.1 == V) ∧
      line_count (for_each_1 V (map_at [] V (map_index [] V id pool)) emit [])
          + line_count (for_each pool (emit_if fun ip => ip.1 != V) [])
        = line_count (for_each pool emit []) := by
  have hsub : map_at [] V (map_index [] V id pool) = map_at [] V pool := by
    rw [map_at_map_index _ _ _ h.1, if_pos rfl]; rfl
  have hc : calls_1 V (map_at [] V pool) = (calls pool).filter (fun p => p.1.1 == V) := by
    rw [calls_1_eq, calls_eq, leaves_filter_first h.1]
  rw [hsub]
  refine ⟨?_, ?_, hc, ?_⟩
  · intro p hp
    rw [hc] at hp
    simpa using (List.mem_filter.1 hp).2
  · rw [hc]
    have := List.filter_append_perm (fun p : ip_v4 × repeats => p.1.1 == V) (calls pool)
    simpa [bne] using this
  · rw [for_each_1_eq, for_each_eq, for_each_eq, ← calls_1_eq, hc, calls_eq,
      line_count_feed_emit, line_count_feed_emit_if, line_count_feed_emit]
    have := sum_filter_add (fun p : ip_v4 × repeats => p.1.1 == V) Prod.snd (leaves pool)
    simpa [bne] using this

theorem first_octet_filter_witness :
    pool_ok example_pool ∧
      ((∀ p ∈ calls_1 1 (map_at [] 1 (map_index [] 1 id example_pool)), p.1.1 = 1) ∧
      (calls_1 1 (map_at [] 1 (map_index [] 1 id example_pool))
          ++ (calls example_pool).filter (fun p => p.1.1 != 1)).Perm (calls example_pool) ∧
      calls_1 1 (map_at [] 1 (map_index [] 1 id example_pool))
        = (calls example_pool).filter (fun p => p.1.1 == 1) ∧
      line_count (for_each_1 1 (map_at [] 1 (map_index [] 1 id example_pool)) emit [])
          + line_count (for_each example_pool (emit_if fun ip => ip.1 != 1) [])
        = line_count (for_each example_pool emit [])) :=
  ⟨by decide, first_octet_filter example_pool (by decide) 1⟩

/-- C6: the last pass writes the lines of exactly the pairs of the enumeration with some
octet equal to 46: the text of an address occurs `count` times in its output when one of
its four octets is 46, and not at all otherwise. -/
theorem any_octet_filter (pool : ip_v4_pool) (hok : pool_ok pool) (hoct : octets_ok pool) :
    (∀ dest, for_each pool emit_any dest
        = dest ++ lines_text (address_lines
            ((calls pool).filter fun p => does_ip_fit_filter p.1))) ∧
      ∀ ip, ip_ok ip →
        (written_lines (for_each pool emit_any [])).count (to_string ip)
          = if ip.1 = 46 ∨ ip.2.1 = 46 ∨ ip.2.2.1 = 46 ∨ ip.2.2.2 = 46
            then (count_at pool ip).getD 0 else 0 := by
  refine ⟨fun dest => by rw [calls_eq]; exact for_each_emit_any pool dest, ?_⟩
  intro ip hip
  rw [for_each_emit_any, List.nil_append,
    written_lines_lines_text _ (address_lines_no_newline _),
    address_lines_count _ ip hip
      (fun p hp => leaves_ip_ok hoct p (List.mem_filter.1 hp).1),
    indicator_sum_filter does_ip_fit_filter, leaves_indicator hok]
  by_cases hf : does_ip_fit_filter ip = true
  · rw [if_pos hf, if_pos ((does_ip_fit_filter_iff ip).1 hf)]
  · rw [if_neg hf, if_neg (fun h => hf ((does_ip_fit_filter_iff ip).2 h))]

theorem any_octet_filter_witness :
    pool_ok example_pool ∧ octets_ok example_pool ∧
      ((∀ dest, for_each example_pool emit_any dest
        = dest ++ lines_text (address_lines
            ((calls example_pool).filter fun p => does_ip_fit_filter p.1))) ∧
      ∀ ip, ip_ok ip →
        (written_lines (for_each example_pool emit_any [])).count (to_string ip)
          = if ip.1 = 46 ∨ ip.2.1 = 46 ∨ ip.2.2.1 = 46 ∨ ip.2.2.2 = 46
            then (count_at example_pool ip).getD 0 else 0) :=
  ⟨by decide, by decide, any_octet_filter example_pool (by decide) (by decide)⟩

/-- C7: the traversal below two fixed octets, over `pool[o1][o2]`, yields exactly the
subsequence, in the same order, of the pairs of the full enumeration whose address begins
with `o1, o2`; it is empty when the pool has no such address. -/
theorem two_octet_traversal (pool : ip_v4_pool) (h : pool_ok pool) (o1 o2 : ip_v4_part) :
    calls_2 (o1, o2)
        (map_at [] o2 (map_at [] o1 (map_index [] o1 (map_index [] o2 id) pool)))
      = (calls pool).filter (fun p => p.1.1 == o1 && p.1.2.1 == o2) ∧
    ((∀ p ∈ calls pool, ¬ (p.1.1 = o1 ∧ p.1.2.1 = o2)) →
      calls_2 (o1, o2)
        (map_at [] o2 (map_at [] o1 (map_index [] o1 (map_index [] o2 id) pool))) = []) := by
  have h2 : map_ok (map_at [] o1 pool) :=
    (all_vals_map_at [] o1 ((pool_ok_iff pool).1 h).2 ⟨map_ok_nil, all_vals_nil _⟩).1
  have hsub : map_at [] o2 (map_at [] o1 (map_index [] o1 (map_index [] o2 id) pool))
      = map_at [] o2 (map_at [] o1 pool) := by
    rw [map_at_map_index _ _ _ h.1, if_pos rfl, map_at_map_index _ _ _ h2, if_pos rfl]; rfl
  have hc : calls_2 (o1, o2) (map_at [] o2 (map_at [] o1 pool))
      = (calls pool).filter (fun p => p.1.1 == o1 && p.1.2.1 == o2) := by
    rw [calls_2_eq, calls_eq, ← leaves_1_filter_second o1 h2, ← leaves_filter_first h.1,
      List.filter_filter]
    apply List.filter_congr
    intro p _
    exact Bool.and_comm _ _
  rw [hsub]
  refine ⟨hc, fun hno => ?_⟩
  rw [hc]
  apply List.filter_eq_nil_iff.2
  intro p hp
  have := hno p hp
  simpa using this

theorem two_octet_traversal_witness :
    pool_ok example_pool ∧
      (calls_2 (1, 2)
          (map_at [] 2 (map_at [] 1 (map_index [] 1 (map_index [] 2 id) example_pool)))
        = (calls example_pool).filter (fun p => p.1.1 == 1 && p.1.2.1 == 2) ∧
      ((∀ p ∈ calls example_pool, ¬ (p.1.1 = 1 ∧ p.1.2.1 = 2)) →
        calls_2 (1, 2)
          (map_at [] 2 (map_at [] 1 (map_index [] 1 (map_index [] 2 id) example_pool))) = [])) :=
  ⟨by decide, two_octet_traversal example_pool (by decide) 1 2⟩

/-- C8: for an address with each octet in 0..255, splitting its text on `.` yields exactly
four tokens, and the octet parser of the pool builder maps them to the four octets. -/
theorem to_string_round_trip (ip : ip_v4) (h : ip_ok ip) :
    (split ip_v4_part_delimiter (to_string ip)).length = 4 ∧
      (split ip_v4_part_delimiter (to_string ip)).map parse_part
        = [.ok ip.1, .ok ip.2.1, .ok ip.2.2.1, .ok ip.2.2.2] ∧
      transform (split ip_v4_part_delimiter (to_string ip))
        = .ok [ip.1, ip.2.1, ip.2.2.1, ip.2.2.2] := by
  have hm : (split ip_v4_part_delimiter (to_string ip)).map parse_part
      = [.ok ip.1, .ok ip.2.1, .ok ip.2.2.1, .ok ip.2.2.2] := by
    rw [split_to_string]
    simp only [List.map_cons, List.map_nil, parse_part_std_to_string _ h.1,
      parse_part_std_to_string _ h.2.1, parse_part_std_to_string _ h.2.2.1,
      parse_part_std_to_string _ h.2.2.2]
  refine ⟨by rw [split_to_string]; rfl, hm, ?_⟩
  rw [transform_ok_iff, hm]; rfl

theorem to_string_round_trip_witness :
    ip_ok (46, 70, 225, 39) ∧
      ((split ip_v4_part_delimiter (to_string (46, 70, 225, 39))).length = 4 ∧
      (split ip_v4_part_delimiter (to_string (46, 70, 225, 39))).map parse_part
        = [.ok 46, .ok 70, .ok 225, .ok 39] ∧
      transform (split ip_v4_part_delimiter (to_string (46, 70, 225, 39)))
        = .ok [46, 70, 225, 39]) :=
  ⟨by decide, to_string_round_trip (46, 70, 225, 39) (by decide)⟩

/-- C9, counterexample to the claim as stated: the lines `-18446744073709551615.0.0.0` and
`-0.0.0.0` hold a token that is not a valid non-negative integer, yet `extract_ip_pool`
completes on each, counting the addresses `1.0.0.0` and `0.0.0.0`. -/
theorem parse_failure_counterexample :
    ¬ (fails ["-18446744073709551615.0.0.0".toList]
        ↔ has_invalid_token ["-18446744073709551615.0.0.0".toList]) ∧
      ¬ (fails ["-0.0.0.0".toList] ↔ has_invalid_token ["-0.0.0.0".toList]) ∧
      (extract_ip_pool ["-18446744073709551615.0.0.0".toList]).pool
        = .ok [(1, [(0, [(0, [(0, 1)])])])] ∧
      (extract_ip_pool ["-0.0.0.0".toList]).pool = .ok [(0, [(0, [(0, [(0, 1)])])])] := by
  refine ⟨?_, ?_, rfl, rfl⟩
  · intro h
    obtain ⟨e, he⟩ := h.2 (by decide)
    cases he
  · intro h
    obtain ⟨e, he⟩ := h.2 (by decide)
    cases he

/-- C9, amended: `extract_ip_pool` fails exactly when some line that is not skipped for its
part count has, among its first four tokens, one the octet parser rejects, that is, one
that is not `octet_text`; a failure implies a token that is not a valid non-negative
integer up to 255; and the failure is not recovered: whatever lines come before and after
an offending line, the run fails. -/
theorem extract_fails_iff (source : List Str) :
    (fails source ↔
        ∃ line ∈ source, ¬ line_skipped line ∧
          ∃ t ∈ (line_tokens line).take 4, ¬ octet_text t) ∧
      (fails source → has_invalid_token source) ∧
      ∀ (pre post : List Str) (line : Str), ¬ line_skipped line →
        (∃ t ∈ (line_tokens line).take 4, ¬ octet_text t) → fails (pre ++ line :: post) := by
  have key : ∀ src : List Str, fails src ↔
      ∃ line ∈ src, ¬ line_skipped line ∧
        ∃ t ∈ (line_tokens line).take 4, ¬ octet_text t := by
    intro src
    unfold fails extract_ip_pool
    rw [extract_loop_fails_iff]
    constructor
    · rintro ⟨l, hl, hs, t, ht, ha⟩
      refine ⟨l, hl, hs, t, ht, fun ho => ?_⟩
      rw [(accepted_iff_octet_text t).2 ho] at ha; cases ha
    · rintro ⟨l, hl, hs, t, ht, ha⟩
      refine ⟨l, hl, hs, t, ht, ?_⟩
      cases hacc : accepted t with
      | false => rfl
      | true => exact absurd ((accepted_iff_octet_text t).1 hacc) ha
  refine ⟨key source, ?_, ?_⟩
  · intro hf
    obtain ⟨l, hl, hs, t, ht, ha⟩ := (key source).1 hf
    exact ⟨l, hl, hs, t, ht, fun hv => ha (valid_octet_text_accepted hv)⟩
  · intro pre post line hs hb
    exact (key _).2 ⟨line, by simp, hs, hb⟩

theorem extract_fails_iff_witness :
    ¬ line_skipped "1.2.3.x".toList ∧
      (∃ t ∈ (line_tokens "1.2.3.x".toList).take 4, ¬ octet_text t) ∧
      fails (["1.2.3.4".toList] ++ "1.2.3.x".toList :: ["5.6.7.8".toList]) :=
  ⟨by decide, by decide,
    (extract_fails_iff ["1.2.3.4".toList, "1.2.3.x".toList, "5.6.7.8".toList]).2.2
      ["1.2.3.4".toList] ["5.6.7.8".toList] "1.2.3.x".toList
      (by decide) (by decide)⟩

/-- C11: a line whose first field has more than 4 dot-separated tokens is not rejected: the
loop treats it exactly as the line made of its first four tokens, and more generally any
two lines that are not skipped and agree on their first four tokens are treated alike, so
the tokens after the fourth are never parsed; `1.2.3.4.5` and `1.2.3.4.x` both count
`1.2.3.4` once, with no exception and no warning. -/
theorem extra_tokens_discarded :
    (∀ line : Str, 4 < (line_tokens line).length →
        ¬ line_skipped line ∧
        line_tokens (first_four line) = (line_tokens line).take 4 ∧
        ∀ (line_id : Nat) (pool : ip_v4_pool) (log : List log_record) (rest : List Str),
          extract_loop line_id pool log (line :: rest)
            = extract_loop line_id pool log (first_four line :: rest)) ∧
      (∀ line line2 : Str, 4 ≤ (line_tokens line).length →
        (line_tokens line2).take 4 = (line_tokens line).take 4 →
        ∀ (line_id : Nat) (pool : ip_v4_pool) (log : List log_record) (rest : List Str),
          extract_loop line_id pool log (line2 :: rest)
            = extract_loop line_id pool log (line :: rest)) ∧
      extract_ip_pool ["1.2.3.4.5".toList] = ⟨[], .ok [(1, [(2, [(3, [(4, 1)])])])]⟩ ∧
      extract_ip_pool ["1.2.3.4.x".toList] = ⟨[], .ok [(1, [(2, [(3, [(4, 1)])])])]⟩ ∧
      extract_ip_pool ["1.2.3.4".toList] = ⟨[], .ok [(1, [(2, [(3, [(4, 1)])])])]⟩ := by
  refine ⟨?_, ?_, rfl, rfl, rfl⟩
  · intro line hlen
    refine ⟨by unfold line_skipped; omega, line_tokens_first_four line, ?_⟩
    intro line_id pool log rest
    exact (extract_loop_same_tokens line (first_four line) (by omega)
      (by rw [line_tokens_first_four]; simp) line_id pool log rest).symm
  · intro line line2 hlen h line_id pool log rest
    exact extract_loop_same_tokens line line2 hlen h line_id pool log rest

theorem extra_tokens_discarded_witness :
    4 < (line_tokens "1.2.3.4.x\tY".toList).length ∧
      (¬ line_skipped "1.2.3.4.x\tY".toList ∧
        line_tokens (first_four "1.2.3.4.x\tY".toList)
          = (line_tokens "1.2.3.4.x\tY".toList).take 4 ∧
        ∀ (line_id : Nat) (pool : ip_v4_pool) (log : List log_record) (rest : List Str),
          extract_loop line_id pool log ("1.2.3.4.x\tY".toList :: rest)
            = extract_loop line_id pool log (first_four "1.2.3.4.x\tY".toList :: rest)) :=
  ⟨by decide, extra_tokens_discarded.1 "1.2.3.4.x\tY".toList (by decide)⟩

/-- C12: when the sequence builds a pool and the line `L` parses to the address `a`, the
sequence followed by `L` twice builds a pool where the count of `a` is 2 more than before
(2 when `a` was absent), the enumeration has a single pair for `a`, and the count of every
other address is unchanged. -/
theorem same_line_twice (lines : List Str) (L : Str) (a : ip_v4) (pool : ip_v4_pool)
    (h : (extract_ip_pool lines).pool = .ok pool) (hL : line_parses_to a L) :
    ∃ pool2, (extract_ip_pool (lines ++ [L, L])).pool = .ok pool2 ∧
      count_at pool2 a = some ((count_at pool a).getD 0 + 2) ∧
      (calls pool2).filter (fun p => decide (p.1 = a)) = [(a, (count_at pool a).getD 0 + 2)] ∧
      ∀ b, b ≠ a → count_at pool2 b = count_at pool b := by
  obtain ⟨hok, _, _⟩ := extract_loop_counts lines 1 [] [] pool h pool_ok_nil counts_pos_nil
  obtain ⟨hlen, ht⟩ := (line_parses_to_iff a L).1 hL
  have hlen' : ¬ (line_tokens L).length < 4 := by omega
  have hstep : ∀ (line_id : Nat) (p : ip_v4_pool) (log : List log_record) (rest : List Str),
      extract_loop line_id p log (L :: rest)
        = extract_loop (line_id + 1) (increment p a.1 a.2.1 a.2.2.1 a.2.2.2) log rest := by
    intro line_id p log rest
    rw [extract_loop_cons, if_neg hlen', ht]
    rfl
  have hok1 := increment_ok hok a.1 a.2.1 a.2.2.1 a.2.2.2
  have hok2 := increment_ok hok1 a.1 a.2.1 a.2.2.1 a.2.2.2
  refine ⟨increment (increment pool a.1 a.2.1 a.2.2.1 a.2.2.2) a.1 a.2.1 a.2.2.1 a.2.2.2,
    ?_, ?_, ?_, ?_⟩
  · unfold extract_ip_pool at h ⊢
    rw [extract_loop_append_ok _ _ _ _ _ pool h, hstep, hstep]
    rfl
  · rw [count_at_increment hok1, if_pos rfl, count_at_increment hok, if_pos rfl]
    simp
  · have hc : count_at (increment (increment pool a.1 a.2.1 a.2.2.1 a.2.2.2)
        a.1 a.2.1 a.2.2.1 a.2.2.2) a = some ((count_at pool a).getD 0 + 2) := by
      rw [count_at_increment hok1, if_pos rfl, count_at_increment hok, if_pos rfl]
      simp
    rw [calls_eq]
    exact filter_key_of_nodup _ a _ (leaves_nodup hok2) ((count_at_eq_some hok2 _ _).1 hc)
  · intro b hb
    rw [count_at_increment hok1, if_neg hb, count_at_increment hok, if_neg hb]

theorem same_line_twice_witness :
    (extract_ip_pool example_source).pool = .ok example_pool ∧
      line_parses_to (1, 2, 3, 4) "1.2.3.4\tW".toList ∧
      ∃ pool2,
        (extract_ip_pool (example_source ++ ["1.2.3.4\tW".toList, "1.2.3.4\tW".toList])).pool
          = .ok pool2 ∧
        count_at pool2 (1, 2, 3, 4) = some ((count_at example_pool (1, 2, 3, 4)).getD 0 + 2) ∧
        (calls pool2).filter (fun p => decide (p.1 = (1, 2, 3, 4)))
          = [((1, 2, 3, 4), (count_at example_pool (1, 2, 3, 4)).getD 0 + 2)] ∧
        ∀ b, b ≠ (1, 2, 3, 4) → count_at pool2 b = count_at example_pool b :=
  ⟨rfl, by decide,
    same_line_twice example_source "1.2.3.4\tW".toList (1, 2, 3, 4) example_pool rfl (by decide)⟩

/-- C13, counterexample to the claim as stated: the pool built from the example input has
no first octet 46, and after the four passes it has the key 46 with the key 70 below it
(an empty map), so it is not equal to the pool `extract_ip_pool` returned. -/
theorem passes_change_pool_counterexample :
    (extract_ip_pool example_source).pool = .ok example_pool ∧
      (passes example_pool []).1
        = [(46, [(70, [])]), (9, [(9, [(9, [(9, 1)])])]), (1, [(2, [(3, [(4, 2)])])])] ∧
      (passes example_pool []).1 ≠ example_pool := by
  refine ⟨rfl, rfl, ?_⟩
  intro h
  have := congrArg List.length h
  revert this
  decide

/-- C13, amended: after the four passes the pool holds the same addresses with the same
counts (same enumeration, same lookups); the entries of first octets other than 1 and 46
are untouched; `pool[1]` and `pool[46][70]` leave the key 1, the key 46 and the key 70 below
46 in the pool, with the subtree they had or an empty one; and the pool equals the returned
one exactly when it already had the key 1 and the key 70 below 46. -/
theorem passes_keep_leaves (source : List Str) (pool : ip_v4_pool)
    (h : (extract_ip_pool source).pool = .ok pool) (dest : Str) :
    calls (passes pool dest).1 = calls pool ∧
      (∀ ip, count_at (passes pool dest).1 ip = count_at pool ip) ∧
      (∀ k, k ≠ 1 → k ≠ 46 → map_find k (passes pool dest).1 = map_find k pool) ∧
      map_find 1 (passes pool dest).1 = some (map_at [] 1 pool) ∧
      (∃ l2, map_find 46 (passes pool dest).1 = some l2 ∧
        (∀ k, k ≠ 70 → map_find k l2 = map_find k (map_at [] 46 pool)) ∧
        map_find 70 l2 = some (map_at [] 70 (map_at [] 46 pool))) ∧
      ((passes pool dest).1 = pool ↔
        (map_find 1 pool).isSome = true ∧
          ((map_find 46 pool).bind (map_find 70)).isSome = true) := by
  obtain ⟨hok, _, _⟩ := extract_loop_counts source 1 [] [] pool h pool_ok_nil counts_pos_nil
  have h1 := index_first_ok hok 1
  have h2 := index_second_ok h1 46 70
  have hl : leaves (passes pool dest).1 = leaves pool := by
    rw [passes_pool_eq, leaves_index_second, leaves_index_first]
  have hm46 : map_ok (map_at [] 46 pool) :=
    (all_vals_map_at [] 46 ((pool_ok_iff pool).1 hok).2 ⟨map_ok_nil, all_vals_nil _⟩).1
  have e46 : map_at [] 46 (map_index [] 1 id pool) = map_at [] 46 pool := by
    rw [map_at_map_index _ _ _ hok.1, if_neg (by decide)]
  have f1 : map_find 1 (passes pool dest).1 = some (map_at [] 1 pool) := by
    rw [passes_pool_eq, map_find_map_index _ _ _ h1.1, if_neg (by decide),
      map_find_map_index _ _ _ hok.1, if_pos rfl]; rfl
  have f46 : map_find 46 (passes pool dest).1
      = some (map_index [] 70 id (map_at [] 46 pool)) := by
    rw [passes_pool_eq, map_find_map_index _ _ _ h1.1, if_pos rfl, e46]
  have f70 : map_find 70 (map_index [] 70 id (map_at [] 46 pool))
      = some (map_at [] 70 (map_at [] 46 pool)) := by
    rw [map_find_map_index _ _ _ hm46, if_pos rfl]; rfl
  refine ⟨by rw [calls_eq, calls_eq, hl], fun ip => count_at_of_leaves h2 hok hl ip,
    ?_, f1, ⟨_, f46, ?_, f70⟩, ?_⟩
  · intro k k1 k46
    rw [passes_pool_eq, map_find_map_index _ _ _ h1.1, if_neg k46,
      map_find_map_index _ _ _ hok.1, if_neg k1]
  · intro k k70
    rw [map_find_map_index _ _ _ hm46, if_neg k70]
  · constructor
    · intro he
      rw [he] at f1 f46
      refine ⟨by rw [f1]; rfl, ?_⟩
      rw [f46]
      simp only [Option.some_bind, f70]; rfl
    · rintro ⟨p1, p2⟩
      cases g1 : map_find 1 pool with
      | none => rw [g1] at p1; cases p1
      | some v1 =>
          cases g46 : map_find 46 pool with
          | none => rw [g46] at p2; cases p2
          | some v46 =>
              rw [g46] at p2
              simp only [Option.some_bind] at p2
              cases g70 : map_find 70 v46 with
              | none => rw [g70] at p2; cases p2
              | some v70 =>
                  have hv46 : map_ok v46 :=
                    (((pool_ok_iff pool).1 hok).2 _ (mem_of_map_find g46)).1
                  rw [passes_pool_eq, map_index_of_found [] 1 id hok.1 g1 rfl,
                    map_index_of_found [] 46 _ hok.1 g46
                      (map_index_of_found [] 70 id hv46 g70 rfl)]

theorem passes_keep_leaves_witness :
    (extract_ip_pool example_source).pool = .ok example_pool ∧
      (calls (passes example_pool []).1 = calls example_pool ∧
      (∀ ip, count_at (passes example_pool []).1 ip = count_at example_pool ip) ∧
      (∀ k, k ≠ 1 → k ≠ 46 →
        map_find k (passes example_pool []).1 = map_find k example_pool) ∧
      map_find 1 (passes example_pool []).1 = some (map_at [] 1 example_pool) ∧
      (∃ l2, map_find 46 (passes example_pool []).1 = some l2 ∧
        (∀ k, k ≠ 70 → map_find k l2 = map_find k (map_at [] 46 example_pool)) ∧
        map_find 70 l2 = some (map_at [] 70 (map_at [] 46 example_pool))) ∧
      ((passes example_pool []).1 = example_pool ↔
        (map_find 1 example_pool).isSome = true ∧
          ((map_find 46 example_pool).bind (map_find 70)).isSome = true)) :=
  ⟨rfl, passes_keep_leaves example_source example_pool rfl []⟩

/-- C14, the code at a failing input: with a source of the one line `1.2.3.4` and a
destination that cannot be opened, `main` returns 0, logs nothing and writes nothing; the
record for a destination that cannot be opened is never logged, whatever the input,
because the test after opening the destination looks at the source stream. -/
theorem destination_not_checked :
    main (some ["1.2.3.4".toList]) false = ⟨some 0, [], [], []⟩ ∧
      (∀ (source : List Str) (destination_opens : Bool),
        main_record.cant_open_destination ∉ (main (some source) destination_opens).records) := by
  refine ⟨rfl, ?_⟩
  intro source d
  unfold main
  simp only
  cases (extract_ip_pool source).pool with
  | error e => simp
  | ok pool =>
      simp only
      split <;> simp

/-- C15: when no line is successfully parsed and no parse failure occurs, `extract_ip_pool`
returns the empty pool, and `main` records the empty-pool warning, returns 0 and writes
nothing, whether or not the destination could be opened. -/
theorem empty_pool_exit (source : List Str) (hnone : ∀ l ∈ source, ¬ line_parsed l)
    (hok : ¬ fails source) :
    (extract_ip_pool source).pool = .ok [] ∧
      ∀ destination_opens : Bool,
        main (some source) destination_opens
          = ⟨some 0, [], [.no_ip_address], (extract_ip_pool source).log⟩ := by
  have hp : (extract_ip_pool source).pool = .ok [] :=
    extract_loop_all_skipped source (all_skipped_of_none_parsed hnone hok) 1 [] []
  refine ⟨hp, fun d => ?_⟩
  unfold main
  simp only [hp]
  rfl

theorem empty_pool_exit_witness :
    (∀ l ∈ ([] : List Str), ¬ line_parsed l) ∧ ¬ fails [] ∧
      ((extract_ip_pool []).pool = .ok [] ∧
        ∀ destination_opens : Bool,
          main (some []) destination_opens
            = ⟨some 0, [], [.no_ip_address], (extract_ip_pool []).log⟩) :=
  ⟨fun l hl => (by cases hl), fun ⟨e, he⟩ => (by cases he),
    empty_pool_exit [] (fun l hl => (by cases hl)) (fun ⟨e, he⟩ => (by cases he))⟩

/-- C16: the addresses passed to the callback by the full enumeration are in strictly
descending lexicographic order, octets compared numerically: any earlier address is
greater than any later one, in particular for consecutive calls; this holds for every pool
(keys descending at each level) and so for every pool `extract_ip_pool` returns. -/
theorem for_each_descending :
    (∀ pool : ip_v4_pool, pool_ok pool →
        (calls pool).Pairwise (fun p q => ip_gt p.1 q.1) ∧
        (calls pool).Chain' (fun p q => ip_gt p.1 q.1)) ∧
      ∀ (source : List Str) (pool : ip_v4_pool), (extract_ip_pool source).pool = .ok pool →
        (calls pool).Pairwise (fun p q => ip_gt p.1 q.1) := by
  have h1 : ∀ pool : ip_v4_pool, pool_ok pool →
      (calls pool).Pairwise (fun p q => ip_gt p.1 q.1) := by
    intro pool h
    rw [calls_eq]; exact leaves_desc h
  refine ⟨fun pool h => ⟨h1 pool h, List.Pairwise.chain' (h1 pool h)⟩, ?_⟩
  intro source pool h
  exact h1 pool (extract_loop_counts source 1 [] [] pool h pool_ok_nil counts_pos_nil).1

theorem for_each_descending_witness :
    pool_ok example_pool ∧
      ((calls example_pool).Pairwise (fun p q => ip_gt p.1 q.1) ∧
        (calls example_pool).Chain' (fun p q => ip_gt p.1 q.1)) :=
  ⟨by decide, for_each_descending.1 example_pool (by decide)⟩

/-- C17: when `extract_ip_pool` completes with pool `P`, running it on the lines the
unfiltered pass writes for `P` completes, skips no line (every line is parsed, the log is
empty) and returns `P`. -/
theorem pool_round_trip (source : List Str) (pool : ip_v4_pool)
    (h : (extract_ip_pool source).pool = .ok pool) :
    (extract_ip_pool (written_lines (for_each pool emit []))).pool = .ok pool ∧
      (extract_ip_pool (written_lines (for_each pool emit []))).log = [] ∧
      ∀ l ∈ written_lines (for_each pool emit []), ¬ line_skipped l ∧ line_parsed l := by
  obtain ⟨hok, hpos, _⟩ := extract_loop_counts source 1 [] [] pool h pool_ok_nil counts_pos_nil
  obtain ⟨hne, hoct⟩ := extract_loop_shape source 1 [] [] pool h no_empty_nil octets_ok_nil
  have hout : written_lines (for_each pool emit []) = address_lines (leaves pool) := by
    rw [for_each_eq, feed_emit, List.nil_append,
      written_lines_lines_text _ (address_lines_no_newline _)]
  rw [hout]
  have hlines : ∀ l ∈ address_lines (leaves pool), ¬ line_skipped l ∧ line_parsed l := by
    intro l hl
    simp only [address_lines, List.mem_flatMap, List.mem_replicate] at hl
    obtain ⟨p, hp, _, rfl⟩ := hl
    have hip := leaves_ip_ok hoct p hp
    have ht := transform_to_string hip
    have hlen : (line_tokens (to_string p.1)).length = 4 := by
      rw [line_tokens_to_string]; rfl
    exact ⟨by unfold line_skipped; omega, by omega, transform_accepted ht⟩
  have hnf : ¬ fails (address_lines (leaves pool)) := by
    intro hf
    obtain ⟨l, hl, _, t, ht, ha⟩ := (extract_loop_fails_iff _ 1 [] []).1 hf
    have := (hlines l hl).2.2 t ht
    rw [ha] at this; cases this
  refine ⟨?_, extract_loop_log_unchanged _ (fun l hl => (hlines l hl).1) 1 [] [], hlines⟩
  cases hr : (extract_ip_pool (address_lines (leaves pool))).pool with
  | error e => exact absurd ⟨e, hr⟩ hnf
  | ok pool' =>
      obtain ⟨hok', hpos', _⟩ :=
        extract_loop_counts _ 1 [] [] pool' hr pool_ok_nil counts_pos_nil
      obtain ⟨hne', _⟩ := extract_loop_shape _ 1 [] [] pool' hr no_empty_nil octets_ok_nil
      have : pool' = pool := by
        apply pool_ext hok' hok hne' hne
        intro ip
        apply option_eq_of_getD (hpos' ip) (hpos ip)
        rw [extract_count_at hr, countP_address_lines _ (leaves_ip_ok hoct), leaves_indicator hok]
      rw [this]

theorem pool_round_trip_witness :
    (extract_ip_pool example_source).pool = .ok example_pool ∧
      ((extract_ip_pool (written_lines (for_each example_pool emit []))).pool
          = .ok example_pool ∧
        (extract_ip_pool (written_lines (for_each example_pool emit []))).log = [] ∧
        ∀ l ∈ written_lines (for_each example_pool emit []),
          ¬ line_skipped l ∧ line_parsed l) :=
  ⟨rfl, pool_round_trip example_source example_pool rfl⟩

/-- C19: in a pool returned by `extract_ip_pool` every count is at least 1 (by lookup and
in the enumeration), no map at level 2, 3 or 4 is empty, and the pool is empty exactly
when no input line was successfully parsed. -/
theorem built_pool_invariant (source : List Str) (pool : ip_v4_pool)
    (h : (extract_ip_pool source).pool = .ok pool) :
    (∀ ip c, count_at pool ip = some c → 1 ≤ c) ∧
      (∀ p ∈ calls pool, 1 ≤ p.2) ∧
      no_empty pool ∧
      (pool = [] ↔ ∀ l ∈ source, ¬ line_parsed l) := by
  obtain ⟨hok, hpos, _⟩ := extract_loop_counts source 1 [] [] pool h pool_ok_nil counts_pos_nil
  obtain ⟨hne, _⟩ := extract_loop_shape source 1 [] [] pool h no_empty_nil octets_ok_nil
  obtain ⟨htot, _⟩ := extract_loop_total source 1 [] [] pool h
  refine ⟨hpos, ?_, hne, ?_⟩
  · intro p hp
    rw [calls_eq] at hp
    exact hpos p.1 p.2 ((count_at_eq_some hok p.1 p.2).2 hp)
  · constructor
    · intro he l hl hpar
      subst he
      have h0 : total ([] : ip_v4_pool) = 0 := rfl
      rw [h0, Nat.zero_add] at htot
      have : 0 < source.countP (fun l => decide (line_parsed l)) :=
        List.countP_pos_iff.2 ⟨l, hl, by simpa using hpar⟩
      omega
    · intro hnone
      have hnf : ¬ fails source := by
        rintro ⟨e, he⟩
        rw [h] at he; cases he
      have := (empty_pool_exit source hnone hnf).1
      rw [h] at this
      exact Except.ok.inj this

theorem built_pool_invariant_witness :
    (extract_ip_pool example_source).pool = .ok example_pool ∧
      ((∀ ip c, count_at example_pool ip = some c → 1 ≤ c) ∧
      (∀ p ∈ calls example_pool, 1 ≤ p.2) ∧
      no_empty example_pool ∧
      (example_pool = [] ↔ ∀ l ∈ example_source, ¬ line_parsed l)) :=
  ⟨rfl, built_pool_invariant example_source example_pool rfl⟩

/-- C20: splitting a line on the tab character always yields at least one field, so the
record of the empty-split branch is never logged; the empty line splits into one empty
field with one part and is skipped by the part-count check, with a shape warning of
count 1. -/
theorem empty_split_unreachable :
    (∀ line : Str, split ['\t'] line ≠ [] ∧ 1 ≤ (split ['\t'] line).length) ∧
      (∀ (source : List Str) (line_id : Nat),
        log_record.empty_parsing_result line_id ∉ (extract_ip_pool source).log) ∧
      split ['\t'] [] = [[]] ∧ line_tokens [] = [[]] ∧
      (∀ (line_id : Nat) (pool : ip_v4_pool) (log : List log_record) (rest : List Str),
        extract_loop line_id pool log ([] :: rest)
          = extract_loop (line_id + 1) pool (log ++ [.ip_parts_count 1 4 line_id]) rest) := by
  refine ⟨fun line => ⟨split_ne_nil _ _, ?_⟩, ?_, rfl, rfl, ?_⟩
  · cases h : split ['\t'] line with
    | nil => exact absurd h (split_ne_nil _ _)
    | cons t ts => simp
  · intro source line_id hmem
    obtain ⟨n, k, hr, _⟩ := extract_loop_log_shape source 1 [] [] (fun r hr => by cases hr) _ hmem
    cases hr
  · intro line_id pool log rest
    rw [extract_loop_cons]
    rfl

end ip
